import Mathlib

/-!
Language backends of the Accumulate SDK generator.

A shallow embedding of `interface.go` and `dart.go` (package `backends`): the
type-mapping table, the backend registry, the file layout of the Dart backend
and the Dart naming helpers, together with the parts of the Go language and
standard library they rest on (byte strings, UTF-8 decoding in `range`,
`strings.ToLower`, `strings.Title`, `filepath.Base`, built-in maps).
-/

namespace Backends

/-! ## Go values -/

/-- A Go `string`: an immutable sequence of bytes, not necessarily valid UTF-8. -/
abbrev GoString := List (Fin 256)

/-- Go's conversion `byte(n)`: the low eight bits of `n`. -/
def byte (n : Nat) : Fin 256 := ⟨n % 256, Nat.mod_lt _ (by decide)⟩

/-- The run-time panics the embedded code can raise. -/
inductive Panic where
  | nilMapAssignment
  | sliceOutOfRange
  deriving DecidableEq, Repr

deriving instance DecidableEq for Except

/-- The constant `utf8.RuneError`, U+FFFD. -/
def RuneError : Nat := 0xFFFD

/-- Go's `utf8.AppendRune` (used by `strings.Builder.WriteRune`): the UTF-8
encoding of the rune `r`; a surrogate or a value above U+10FFFF is encoded as
U+FFFD. Shifts and masks are written with `/` and `%`. -/
def encodeRune (r : Nat) : GoString :=
  if r ≤ 0x7F then [byte r]
  else if r ≤ 0x7FF then [byte (0xC0 + r / 64), byte (0x80 + r % 64)]
  else
    let r3 := if r > 0x10FFFF ∨ (0xD800 ≤ r ∧ r ≤ 0xDFFF) then RuneError else r
    if r3 ≤ 0xFFFF then
      [byte (0xE0 + r3 / 4096), byte (0x80 + r3 / 64 % 64), byte (0x80 + r3 % 64)]
    else
      [byte (0xF0 + r / 262144), byte (0x80 + r / 4096 % 64), byte (0x80 + r / 64 % 64),
        byte (0x80 + r % 64)]

/-- A Go string literal: the UTF-8 bytes of the text between the quotes. -/
def lit (s : String) : GoString := s.toList.flatMap (fun c => encodeRune c.toNat)

/-! ## Go's built-in map -/

/-- Go's `map[K]V`. `nil` is the nil map (the zero value); `mk kvs` is an
initialised map whose bindings are the pairs of `kvs`, a pair nearer the head
shadowing a later pair with the same key. -/
inductive GoMap (κ ν : Type) where
  | nil : GoMap κ ν
  | mk (kvs : List (κ × ν)) : GoMap κ ν
  deriving DecidableEq, Repr

/-- First binding of `k` in an association list. -/
def assocFind {κ ν : Type} [DecidableEq κ] (k : κ) : List (κ × ν) → Option ν
  | [] => none
  | (k1, v) :: t => if k1 = k then some v else assocFind k t

/-- The distinct keys of an association list. -/
def assocKeys {κ ν : Type} [DecidableEq κ] : List (κ × ν) → List κ
  | [] => []
  | (k, _) :: t => if k ∈ assocKeys t then assocKeys t else k :: assocKeys t

namespace GoMap

variable {κ ν : Type} [DecidableEq κ]

/-- The comma-ok index expression `v, ok := m[k]`: `some v` when `k` is bound,
`none` when it is not (in particular on the nil map). -/
def get (m : GoMap κ ν) (k : κ) : Option ν :=
  match m with
  | nil => none
  | mk kvs => assocFind k kvs

/-- The assignment `m[k] = v`: panics on the nil map, otherwise binds `k` to
`v`, replacing any earlier binding. -/
def set (m : GoMap κ ν) (k : κ) (v : ν) : Except Panic (GoMap κ ν) :=
  match m with
  | nil => .error Panic.nilMapAssignment
  | mk kvs => .ok (mk ((k, v) :: kvs))

/-- The keys bound in the map, each once. -/
def keys (m : GoMap κ ν) : List κ :=
  match m with
  | nil => []
  | mk kvs => assocKeys kvs

/-- The built-in `len(m)`. -/
def len (m : GoMap κ ν) : Nat := m.keys.length

/-- The bindings an initialised map was built from, none for the nil map. -/
def entries (m : GoMap κ ν) : List (κ × ν) :=
  match m with
  | nil => []
  | mk kvs => kvs

/-- The orders in which `for k := range m` may visit the keys: every key
exactly once, in an order the language leaves unspecified. -/
def IsRangeOrder (m : GoMap κ ν) (order : List κ) : Prop := order.Perm m.keys

instance (m : GoMap κ ν) (order : List κ) : Decidable (m.IsRangeOrder order) := by
  unfold IsRangeOrder; infer_instance

end GoMap

/-! ## interface.go -/

/-- The struct `AdditionalFile`: a non-source file that needs to be generated.
`Data` is of the interface type `interface{}`, `none` being nil. -/
structure AdditionalFile (δ : Type) where
  Path : GoString
  Template : GoString
  Data : Option δ

/-- The struct `OutputStructure`: the directory layout for generated code. -/
structure OutputStructure where
  ClientDir : GoString
  TypesDir : GoString
  ExtraDir : List GoString
  deriving DecidableEq

/-- The variable `TypeMappings`: common type mappings between Go and the target
languages. -/
def TypeMappings : GoMap GoString (GoMap GoString GoString) :=
  .mk [
    (lit "dart", .mk [
      (lit "string", lit "String"),
      (lit "int", lit "int"),
      (lit "uint", lit "int"),
      (lit "uint32", lit "int"),
      (lit "uint64", lit "int"),
      (lit "int32", lit "int"),
      (lit "int64", lit "int"),
      (lit "bool", lit "bool"),
      (lit "float64", lit "double"),
      (lit "float32", lit "double"),
      (lit "[]byte", lit "Uint8List"),
      (lit "time.Time", lit "DateTime")]),
    (lit "python", .mk [
      (lit "string", lit "str"),
      (lit "int", lit "int"),
      (lit "uint", lit "int"),
      (lit "uint32", lit "int"),
      (lit "uint64", lit "int"),
      (lit "int32", lit "int"),
      (lit "int64", lit "int"),
      (lit "bool", lit "bool"),
      (lit "float64", lit "float"),
      (lit "float32", lit "float"),
      (lit "[]byte", lit "bytes"),
      (lit "time.Time", lit "datetime.datetime")]),
    (lit "rust", .mk [
      (lit "string", lit "String"),
      (lit "int", lit "i64"),
      (lit "uint", lit "u64"),
      (lit "uint32", lit "u32"),
      (lit "uint64", lit "u64"),
      (lit "int32", lit "i32"),
      (lit "int64", lit "i64"),
      (lit "bool", lit "bool"),
      (lit "float64", lit "f64"),
      (lit "float32", lit "f32"),
      (lit "[]byte", lit "Vec<u8>"),
      (lit "time.Time", lit "chrono::DateTime<chrono::Utc>")])]

/-- The function `MapType`: maps a Go type to the target language equivalent,
defaulting to the original type if no mapping is found. -/
def MapType (goType targetLang : GoString) : GoString :=
  match TypeMappings.get targetLang with
  | some mappings =>
    match mappings.get goType with
    | some mapped => mapped
    | none => goType
  | none => goType

/-- The struct `BackendRegistry`. A value of the interface type
`LanguageBackend` is `none` (the nil interface) or `some b` for a backend `b`
of the type `β` of backend implementations. -/
structure BackendRegistry (β : Type) where
  backends : GoMap GoString (Option β)
  deriving DecidableEq

namespace BackendRegistry

variable {β : Type}

/-- The method `Register`: adds a new backend to the registry. -/
def Register (r : BackendRegistry β) (name : GoString) (backend : Option β) :
    Except Panic (BackendRegistry β) :=
  match r.backends.set name backend with
  | .ok m => .ok { backends := m }
  | .error e => .error e

/-- The method `Get`: retrieves a backend by name, with the comma-ok flag. -/
def Get (r : BackendRegistry β) (name : GoString) : Option β × Bool :=
  match r.backends.get name with
  | some backend => (backend, true)
  | none => (none, false)

/-- A finite sequence of `Register` calls, applied in order; it stops at the
first call that panics. -/
def registerAll (r : BackendRegistry β) :
    List (GoString × Option β) → Except Panic (BackendRegistry β)
  | [] => .ok r
  | (name, backend) :: calls =>
    match r.Register name backend with
    | .ok r1 => registerAll r1 calls
    | .error e => .error e

end BackendRegistry

/-- The method `List`: all available backend names, appended in the order
`order` in which the `range` loop visits the keys of the map. -/
def BackendRegistry.List {β : Type} (_r : BackendRegistry β) (order : List GoString) :
    List GoString :=
  order.foldl (fun names name => names ++ [name]) []

/-- The four backend values `NewBackendRegistry` constructs, one per constructor
call (`NewDartBackend()`, `NewPythonBackend()`, `NewRustBackend()`,
`NewGoBackend()`). -/
inductive ShippedBackend where
  | dart
  | python
  | rust
  | go
  deriving DecidableEq, Repr

/-- The registry `make(map[string]LanguageBackend)` wraps: initialised, no
binding. -/
def emptyRegistry (β : Type) : BackendRegistry β := { backends := .mk [] }

/-- The function `NewBackendRegistry`: a new backend registry with all
available backends. -/
def NewBackendRegistry : Except Panic (BackendRegistry ShippedBackend) :=
  match (emptyRegistry ShippedBackend).Register (lit "dart") (some .dart) with
  | .error e => .error e
  | .ok r1 =>
    match r1.Register (lit "python") (some .python) with
    | .error e => .error e
    | .ok r2 =>
      match r2.Register (lit "rust") (some .rust) with
      | .error e => .error e
      | .ok r3 => r3.Register (lit "go") (some .go)

/-! ## Go's packages utf8, unicode, strings and filepath -/

namespace utf8

/-- The table `first` of package utf8: information about the first byte of a
UTF-8 sequence. `0xF0` marks an ASCII byte, `0xF1` an invalid first byte; any
other entry holds the size of the sequence in its low three bits and the index
of the accept range of the second byte in its high four bits. -/
def first (b : Nat) : Nat :=
  if b < 0x80 then 0xF0
  else if b < 0xC2 then 0xF1
  else if b < 0xE0 then 0x02
  else if b = 0xE0 then 0x13
  else if b < 0xED then 0x03
  else if b = 0xED then 0x23
  else if b < 0xF0 then 0x03
  else if b = 0xF0 then 0x34
  else if b < 0xF4 then 0x04
  else if b = 0xF4 then 0x44
  else 0xF1

/-- The table `acceptRanges` of package utf8: the lowest and the highest value
allowed for the second byte of a sequence. -/
def acceptRanges (i : Nat) : Nat × Nat :=
  match i with
  | 0 => (0x80, 0xBF)
  | 1 => (0xA0, 0xBF)
  | 2 => (0x80, 0x9F)
  | 3 => (0x90, 0xBF)
  | 4 => (0x80, 0x8F)
  | _ => (0, 0)

/-- Go's `utf8.DecodeRuneInString`: the first rune of `s` and its width in
bytes; `(RuneError, 0)` for the empty string and `(RuneError, 1)` for an
invalid encoding. -/
def DecodeRuneInString (s : GoString) : Nat × Nat :=
  match s with
  | [] => (RuneError, 0)
  | s0 :: t =>
    let x := first s0.val
    if x ≥ 0xF0 then
      (if x = 0xF1 then RuneError else s0.val, 1)
    else
      let sz := x % 8
      let accept := acceptRanges (x / 16)
      if s.length < sz then (RuneError, 1)
      else
        match t with
        | [] => (RuneError, 1)
        | s1 :: t1 =>
          if s1.val < accept.1 ∨ accept.2 < s1.val then (RuneError, 1)
          else if sz ≤ 2 then (s0.val % 32 * 64 + s1.val % 64, 2)
          else
            match t1 with
            | [] => (RuneError, 1)
            | s2 :: t2 =>
              if s2.val < 0x80 ∨ 0xBF < s2.val then (RuneError, 1)
              else if sz ≤ 3 then
                (s0.val % 16 * 4096 + s1.val % 64 * 64 + s2.val % 64, 3)
              else
                match t2 with
                | [] => (RuneError, 1)
                | s3 :: _ =>
                  if s3.val < 0x80 ∨ 0xBF < s3.val then (RuneError, 1)
                  else
                    (s0.val % 8 * 262144 + s1.val % 64 * 4096 + s2.val % 64 * 64
                      + s3.val % 64, 4)

end utf8

/-- The iteration values of `for i, r := range s` from byte index `i` on, `skip`
being the number of bytes still covered by the rune decoded last: at each
remaining start the first rune is decoded (U+FFFD, width 1, for an invalid
sequence) and the loop resumes after its bytes. -/
def rangeFrom : Nat → Nat → GoString → List (Nat × Nat)
  | _, _, [] => []
  | 0, i, b :: t =>
    (i, (utf8.DecodeRuneInString (b :: t)).1) ::
      rangeFrom ((utf8.DecodeRuneInString (b :: t)).2 - 1) (i + 1) t
  | skip + 1, i, _ :: t => rangeFrom skip (i + 1) t

/-- The pairs `(i, r)` of `for i, r := range s`: byte index and rune. -/
def rangeString (s : GoString) : List (Nat × Nat) := rangeFrom 0 0 s

/-- The Unicode tables of Go's package unicode (case mappings and the
categories upper case letter, letter, digit and white space). They are not part
of the repository and are taken as a parameter; they are consulted for runes
above U+007F only, the functions below deciding ASCII themselves. -/
structure UnicodeTables where
  toUpper : Nat → Nat
  toLower : Nat → Nat
  toTitle : Nat → Nat
  isUpper : Nat → Bool
  isLetter : Nat → Bool
  isDigit : Nat → Bool
  isSpace : Nat → Bool

/-- A table value that agrees with Go's tables on U+0080..U+00FF (the Latin-1
supplement) and leaves every rune above U+00FF without case and class, as
Go's tables do for U+FFFD. -/
def latin1 : UnicodeTables where
  toUpper r :=
    if 0xE0 ≤ r ∧ r ≤ 0xFE ∧ r ≠ 0xF7 then r - 32
    else if r = 0xFF then 0x178 else if r = 0xB5 then 0x39C else r
  toLower r := if 0xC0 ≤ r ∧ r ≤ 0xDE ∧ r ≠ 0xD7 then r + 32 else r
  toTitle r :=
    if 0xE0 ≤ r ∧ r ≤ 0xFE ∧ r ≠ 0xF7 then r - 32
    else if r = 0xFF then 0x178 else if r = 0xB5 then 0x39C else r
  isUpper r := decide (0xC0 ≤ r ∧ r ≤ 0xDE ∧ r ≠ 0xD7)
  isLetter r :=
    decide (r = 0xAA ∨ r = 0xB5 ∨ r = 0xBA ∨ (0xC0 ≤ r ∧ r ≤ 0xFF ∧ r ≠ 0xD7 ∧ r ≠ 0xF7))
  isDigit _ := false
  isSpace r := decide (r = 0x85 ∨ r = 0xA0)

namespace unicode

/-- Go's `unicode.ToUpper`. -/
def ToUpper (U : UnicodeTables) (r : Nat) : Nat :=
  if r ≤ 0x7F then (if 0x61 ≤ r ∧ r ≤ 0x7A then r - 32 else r) else U.toUpper r

/-- Go's `unicode.ToLower`. -/
def ToLower (U : UnicodeTables) (r : Nat) : Nat :=
  if r ≤ 0x7F then (if 0x41 ≤ r ∧ r ≤ 0x5A then r + 32 else r) else U.toLower r

/-- Go's `unicode.IsUpper`: whether the rune is an upper case letter. -/
def IsUpper (U : UnicodeTables) (r : Nat) : Bool :=
  if r ≤ 0x7F then decide (0x41 ≤ r ∧ r ≤ 0x5A) else U.isUpper r

/-- Go's `unicode.ToTitle`: title case is upper case for ASCII. -/
def ToTitle (U : UnicodeTables) (r : Nat) : Nat :=
  if r ≤ 0x7F then (if 0x61 ≤ r ∧ r ≤ 0x7A then r - 32 else r) else U.toTitle r

end unicode

namespace strings

/-- Go's `strings.Map` for a mapping that never returns a negative rune: every
rune of `s` in `range` order (U+FFFD for an invalid byte) is replaced by the
encoding of its image. The mapping is called once a rune, in order, and may
carry a state `σ` from call to call (the variables its closure captures). -/
def Map {σ : Type} (mapping : σ → Nat → Nat × σ) (st : σ) (s : GoString) : GoString :=
  ((rangeString s).foldl
    (fun (acc : GoString × σ) (ir : Nat × Nat) =>
      (acc.1 ++ encodeRune (mapping acc.2 ir.2).1, (mapping acc.2 ir.2).2))
    ([], st)).1

/-- Go's `strings.ToLower`: byte-wise on an ASCII-only string, else
`Map(unicode.ToLower, s)`. -/
def ToLower (U : UnicodeTables) (s : GoString) : GoString :=
  let isASCII := s.all (fun c => decide (c.val < 0x80))
  let hasUpper := s.any (fun c => decide (0x41 ≤ c.val ∧ c.val ≤ 0x5A))
  if isASCII then
    if !hasUpper then s
    else s.map (fun c => if 0x41 ≤ c.val ∧ c.val ≤ 0x5A then byte (c.val + 32) else c)
  else Map (fun (_ : Unit) r => (unicode.ToLower U r, ())) () s

/-- The function `isSeparator` of package strings: whether the rune could mark a
word boundary. -/
def isSeparator (U : UnicodeTables) (r : Nat) : Bool :=
  if r ≤ 0x7F then
    if 0x30 ≤ r ∧ r ≤ 0x39 then false
    else if 0x61 ≤ r ∧ r ≤ 0x7A then false
    else if 0x41 ≤ r ∧ r ≤ 0x5A then false
    else if r = 0x5F then false
    else true
  else if U.isLetter r || U.isDigit r then false
  else U.isSpace r

/-- Go's `strings.Title`: the letters that begin words mapped to their title
case; `prev`, the rune seen last, starts as a space. -/
def Title (U : UnicodeTables) (s : GoString) : GoString :=
  Map (fun (prev : Nat) r => (if isSeparator U prev then unicode.ToTitle U r else r, r)) 0x20 s

end strings

/-- The slice expression `s[lo:hi]` of a string: panics unless
`lo ≤ hi ≤ len(s)`. -/
def slice (s : GoString) (lo hi : Nat) : Except Panic GoString :=
  if lo ≤ hi ∧ hi ≤ s.length then .ok ((s.take hi).drop lo) else .error Panic.sliceOutOfRange

namespace filepath

/-- Go's `os.IsPathSeparator` on Unix: the byte '/'. -/
def IsPathSeparator (c : Fin 256) : Bool := decide (c.val = 0x2F)

/-- The first loop of `filepath.Base`: trailing separators stripped. -/
def stripTrailingSeparators (path : GoString) : GoString :=
  (path.reverse.dropWhile IsPathSeparator).reverse

/-- The second loop of `filepath.Base`: what follows the last separator, the
whole path when it has none. -/
def lastElement (path : GoString) : GoString :=
  (path.reverse.takeWhile (fun c => !IsPathSeparator c)).reverse

/-- Go's `filepath.Base` on Unix (separator '/', no volume name): the last
element of the path; "." for the empty path, "/" for a path of slashes only. -/
def Base (path : GoString) : GoString :=
  if path = [] then lit "."
  else if lastElement (stripTrailingSeparators path) = [] then lit "/"
  else lastElement (stripTrailingSeparators path)

end filepath

/-! ## interface.go: file names -/

/-- The function `SafeFileName`: "converts a string to a safe filename". -/
def SafeFileName (name : GoString) : GoString := filepath.Base name

/-! ## dart.go -/

/-- The template texts embedded with `go:embed`. The template files are not
among the sources and are taken as a parameter. -/
structure EmbeddedTemplates where
  dartClientTemplate : GoString
  dartTypesTemplate : GoString
  dartPubspecTemplate : GoString
  dartJsonRpcClientTemplate : GoString

/-- The struct `DartBackend`, `τ` being the type of parsed templates. -/
structure DartBackend (τ : Type) where
  clientTemplate : τ
  typesTemplate : τ
  pubspecTemplate : τ

namespace DartBackend

variable {τ : Type}

/-- The method `GetFileExtension`. -/
def GetFileExtension (_d : DartBackend τ) : GoString := lit ".dart"

/-- The method `GetClientFileName`. -/
def GetClientFileName (_d : DartBackend τ) : GoString := lit "lib/accumulate_client.dart"

/-- The method `GetTypesFileName`. -/
def GetTypesFileName (_d : DartBackend τ) : GoString := lit "lib/types.dart"

/-- The method `GetAdditionalFiles`. -/
def GetAdditionalFiles {δ : Type} (E : EmbeddedTemplates) (_d : DartBackend τ) :
    List (AdditionalFile δ) :=
  [{ Path := lit "pubspec.yaml", Template := E.dartPubspecTemplate, Data := none },
   { Path := lit "lib/src/json_rpc_client.dart", Template := E.dartJsonRpcClientTemplate,
     Data := none }]

/-- The method `GetOutputStructure`. -/
def GetOutputStructure (_d : DartBackend τ) : OutputStructure :=
  { ClientDir := lit "lib", TypesDir := lit "lib", ExtraDir := [lit "lib/src"] }

end DartBackend

/-- The function `mapDartType`. -/
def mapDartType (goType : GoString) : GoString := MapType goType (lit "dart")

/-- The function `camelCase`: `strings.ToLower(s[:1]) + s[1:]` for a non-empty
`s`. -/
def camelCase (U : UnicodeTables) (s : GoString) : Except Panic GoString :=
  if s = [] then .ok s
  else
    match slice s 0 1 with
    | .error e => .error e
    | .ok front =>
      match slice s 1 s.length with
      | .error e => .error e
      | .ok back => .ok (strings.ToLower U front ++ back)

/-- The function `snakeCase`: the loop writes every rune of `s` to the builder,
an underscore before it when it is in 'A'..'Z' at a byte index above 0, and the
result is lower-cased. -/
def snakeCase (U : UnicodeTables) (s : GoString) : GoString :=
  strings.ToLower U
    ((rangeString s).foldl
      (fun (result : GoString) (ir : Nat × Nat) =>
        (if ir.1 > 0 ∧ ir.2 ≥ 0x41 ∧ ir.2 ≤ 0x5A then result ++ encodeRune 0x5F else result)
          ++ encodeRune ir.2)
      [])

/-- The function `dartClassName`. -/
def dartClassName (U : UnicodeTables) (s : GoString) : GoString := strings.Title U s

/-- The function `dartMethodName`. -/
def dartMethodName (U : UnicodeTables) (s : GoString) : Except Panic GoString := camelCase U s

/-! ## The transforms and paths as the specification words them -/

/-- The runes of a string, in `range` order: its characters, U+FFFD standing for
every byte that begins no valid UTF-8 sequence. -/
def runes (s : GoString) : List Nat := (rangeString s).map Prod.snd

/-- The UTF-8 encoding of a sequence of runes. -/
def encodeAll (rs : List Nat) : GoString := rs.flatMap encodeRune

/-- `ToUpperCamel` as specified: the first character upper-cased, the remainder
unchanged. -/
def ToUpperCamel (U : UnicodeTables) (s : GoString) : GoString :=
  match s with
  | [] => []
  | _ :: _ =>
    encodeRune (unicode.ToUpper U (utf8.DecodeRuneInString s).1)
      ++ s.drop (utf8.DecodeRuneInString s).2

/-- `ToLowerCamel` as specified: the first character lower-cased, the remainder
unchanged; the empty string unchanged. -/
def ToLowerCamel (U : UnicodeTables) (s : GoString) : GoString :=
  match s with
  | [] => []
  | _ :: _ =>
    encodeRune (unicode.ToLower U (utf8.DecodeRuneInString s).1)
      ++ s.drop (utf8.DecodeRuneInString s).2

/-- One '_' immediately before every upper-case character of a sequence. -/
def insertBeforeUpper (U : UnicodeTables) (rs : List Nat) : List Nat :=
  rs.flatMap (fun r => if unicode.IsUpper U r then [0x5F, r] else [r])

/-- `ToSnakeCase` as specified: a separator before every upper-case character
that is not the first character, then the whole string lower-cased. -/
def ToSnakeCase (U : UnicodeTables) (s : GoString) : GoString :=
  strings.ToLower U
    (encodeAll
      (match runes s with
      | [] => []
      | r :: rs => r :: insertBeforeUpper U rs))

/-- Separator insertion restricted to ASCII, from byte index `i` on: one '_'
immediately before every byte 'A'..'Z' at an index above 0. -/
def insertSeparatorsFrom : Nat → GoString → GoString
  | _, [] => []
  | i, c :: t =>
    if i > 0 ∧ 0x41 ≤ c.val ∧ c.val ≤ 0x5A then
      byte 0x5F :: c :: insertSeparatorsFrom (i + 1) t
    else c :: insertSeparatorsFrom (i + 1) t

/-- A byte of an ASCII identifier: a letter, a digit or the underscore. -/
def isWordByte (c : Fin 256) : Prop :=
  (0x30 ≤ c.val ∧ c.val ≤ 0x39) ∨ (0x41 ≤ c.val ∧ c.val ≤ 0x5A) ∨
    (0x61 ≤ c.val ∧ c.val ≤ 0x7A) ∨ c.val = 0x5F

/-- Word-boundary title case on runes: a rune is replaced by its title case
exactly when the rune before it is a separator, a space standing before the
first rune. -/
def titleRunes (U : UnicodeTables) (rs : List Nat) : List Nat :=
  List.zipWith (fun prev r => if strings.isSeparator U prev then unicode.ToTitle U r else r)
    (0x20 :: rs) rs

/-- The parent directory of a slash-separated path: the text before its last
'/', empty when the path has no '/'. -/
def parentDir (p : GoString) : GoString :=
  ((p.reverse.dropWhile (fun c => decide (c.val ≠ 0x2F))).drop 1).reverse

/-! ## Auxiliary notions for the proofs -/

/-- A continuation byte of UTF-8. -/
def isCont (c : Nat) : Prop := 0x80 ≤ c ∧ c ≤ 0xBF

instance (c : Nat) : Decidable (isCont c) := by
  unfold isCont; infer_instance

/-- A well-formed two-byte sequence begins with these bytes. -/
def twoByte (b c1 : Nat) : Prop := 0xC2 ≤ b ∧ b ≤ 0xDF ∧ isCont c1

instance (b c1 : Nat) : Decidable (twoByte b c1) := by
  unfold twoByte; infer_instance

/-- A well-formed three-byte sequence (no overlong form, no surrogate). -/
def threeByte (b c1 c2 : Nat) : Prop :=
  ((b = 0xE0 ∧ 0xA0 ≤ c1 ∧ c1 ≤ 0xBF) ∨ (0xE1 ≤ b ∧ b ≤ 0xEC ∧ isCont c1) ∨
    (b = 0xED ∧ 0x80 ≤ c1 ∧ c1 ≤ 0x9F) ∨ (0xEE ≤ b ∧ b ≤ 0xEF ∧ isCont c1)) ∧ isCont c2

instance (b c1 c2 : Nat) : Decidable (threeByte b c1 c2) := by
  unfold threeByte; infer_instance

/-- A well-formed four-byte sequence (no overlong form, at most U+10FFFF). -/
def fourByte (b c1 c2 c3 : Nat) : Prop :=
  ((b = 0xF0 ∧ 0x90 ≤ c1 ∧ c1 ≤ 0xBF) ∨ (0xF1 ≤ b ∧ b ≤ 0xF3 ∧ isCont c1) ∨
    (b = 0xF4 ∧ 0x80 ≤ c1 ∧ c1 ≤ 0x8F)) ∧ isCont c2 ∧ isCont c3

instance (b c1 c2 c3 : Nat) : Decidable (fourByte b c1 c2 c3) := by
  unfold fourByte; infer_instance

/-- The decoder read off the table of well-formed UTF-8 byte sequences of the
Unicode standard; `utf8.DecodeRuneInString` is proved equal to it. -/
def decodeSpec (s : GoString) : Nat × Nat :=
  match s with
  | [] => (RuneError, 0)
  | b :: t =>
    if b.val < 0x80 then (b.val, 1)
    else
      match t with
      | [] => (RuneError, 1)
      | [c1] =>
        if twoByte b.val c1.val then (b.val % 32 * 64 + c1.val % 64, 2) else (RuneError, 1)
      | [c1, c2] =>
        if twoByte b.val c1.val then (b.val % 32 * 64 + c1.val % 64, 2)
        else if threeByte b.val c1.val c2.val then
          (b.val % 16 * 4096 + c1.val % 64 * 64 + c2.val % 64, 3)
        else (RuneError, 1)
      | c1 :: c2 :: c3 :: _ =>
        if twoByte b.val c1.val then (b.val % 32 * 64 + c1.val % 64, 2)
        else if threeByte b.val c1.val c2.val then
          (b.val % 16 * 4096 + c1.val % 64 * 64 + c2.val % 64, 3)
        else if fourByte b.val c1.val c2.val c3.val then
          (b.val % 8 * 262144 + c1.val % 64 * 4096 + c2.val % 64 * 64 + c3.val % 64, 4)
        else (RuneError, 1)

/-- A Unicode scalar value: at most U+10FFFF and no surrogate. -/
def validRune (r : Nat) : Prop := r < 0xD800 ∨ (0xE000 ≤ r ∧ r ≤ 0x10FFFF)

/-- The runes of `rangeFrom`, without their byte indices. -/
def runesFrom : Nat → GoString → List Nat
  | _, [] => []
  | 0, b :: t =>
    (utf8.DecodeRuneInString (b :: t)).1 :: runesFrom ((utf8.DecodeRuneInString (b :: t)).2 - 1) t
  | skip + 1, _ :: t => runesFrom skip t

/-- One '_' before every rune 'A'..'Z' of a sequence. -/
def sepRunes (rs : List Nat) : List Nat :=
  rs.flatMap (fun r => if 0x41 ≤ r ∧ r ≤ 0x5A then [0x5F, r] else [r])

/-- The images of a sequence of runes under a mapping that carries a state. -/
def mapRunes {σ : Type} (mapping : σ → Nat → Nat × σ) : σ → List Nat → List Nat
  | _, [] => []
  | st, r :: rs => (mapping st r).1 :: mapRunes mapping (mapping st r).2 rs

/-- The runes `snakeCase` writes to its builder: the first rune as it is, one
'_' before every later rune in 'A'..'Z'. -/
def snakeRunes : List Nat → List Nat
  | [] => []
  | r :: rs => r :: sepRunes rs

open utf8

/-! ## The UTF-8 decoder -/

set_option maxRecDepth 100000 in
theorem first_cases : ∀ b : Fin 256,
    (b.val < 0x80 ∧ first b.val = 0xF0) ∨
    ((0x80 ≤ b.val ∧ b.val < 0xC2 ∨ 0xF5 ≤ b.val) ∧ first b.val = 0xF1) ∨
    ((0xC2 ≤ b.val ∧ b.val < 0xE0) ∧ first b.val = 0x02) ∨
    (b.val = 0xE0 ∧ first b.val = 0x13) ∨
    ((0xE1 ≤ b.val ∧ b.val < 0xED ∨ b.val = 0xEE ∨ b.val = 0xEF) ∧ first b.val = 0x03) ∨
    (b.val = 0xED ∧ first b.val = 0x23) ∨ (b.val = 0xF0 ∧ first b.val = 0x34) ∨
    ((0xF1 ≤ b.val ∧ b.val < 0xF4) ∧ first b.val = 0x04) ∨
    (b.val = 0xF4 ∧ first b.val = 0x44) := by
  decide

set_option maxHeartbeats 4000000 in
theorem Decode_eq_spec (s : GoString) : DecodeRuneInString s = decodeSpec s := by
  match s with
  | [] => rfl
  | [b] =>
    rcases first_cases b with h1 | h1 | h1 | h1 | h1 | h1 | h1 | h1 | h1
    all_goals
      obtain ⟨hr, hf⟩ := h1
      simp only [DecodeRuneInString, decodeSpec, hf, RuneError, acceptRanges, List.length_cons,
        List.length_nil, twoByte, threeByte, fourByte, isCont]
      norm_num
      try split_ifs
      all_goals first | (with_reducible rfl) | omega
  | [b, c1] =>
    rcases first_cases b with h1 | h1 | h1 | h1 | h1 | h1 | h1 | h1 | h1
    all_goals
      obtain ⟨hr, hf⟩ := h1
      simp only [DecodeRuneInString, decodeSpec, hf, RuneError, acceptRanges, List.length_cons,
        List.length_nil, twoByte, threeByte, fourByte, isCont]
      norm_num
      try split_ifs
      all_goals first | (with_reducible rfl) | omega
  | [b, c1, c2] =>
    rcases first_cases b with h1 | h1 | h1 | h1 | h1 | h1 | h1 | h1 | h1
    all_goals
      obtain ⟨hr, hf⟩ := h1
      simp only [DecodeRuneInString, decodeSpec, hf, RuneError, acceptRanges, List.length_cons,
        List.length_nil, twoByte, threeByte, fourByte, isCont]
      norm_num
      try split_ifs
      all_goals first | (with_reducible rfl) | omega
  | b :: c1 :: c2 :: c3 :: t =>
    rcases first_cases b with h1 | h1 | h1 | h1 | h1 | h1 | h1 | h1 | h1
    all_goals
      obtain ⟨hr, hf⟩ := h1
      simp only [DecodeRuneInString, decodeSpec, hf, RuneError, acceptRanges, List.length_cons,
        List.length_nil, twoByte, threeByte, fourByte, isCont]
      norm_num
      try split_ifs
      all_goals first | (with_reducible rfl) | omega

theorem Decode_ascii (b : Fin 256) (t : GoString) (h : b.val < 0x80) :
    DecodeRuneInString (b :: t) = (b.val, 1) := by
  rw [Decode_eq_spec]
  simp [decodeSpec, h]

theorem Decode_bounds (b : Fin 256) (t : GoString) (r w : Nat)
    (hd : DecodeRuneInString (b :: t) = (r, w)) :
    1 ≤ w ∧ w ≤ t.length + 1 ∧ validRune r ∧ (0x80 ≤ b.val → 0x80 ≤ r) ∧
    ∀ c ∈ t.take (w - 1), 0x80 ≤ c.val := by
  have hb := b.isLt
  rw [Decode_eq_spec] at hd
  unfold validRune
  match t with
  | [] =>
    simp only [decodeSpec, RuneError] at hd
    split_ifs at hd <;> obtain ⟨rfl, rfl⟩ := Prod.mk.inj hd <;> simp
    omega
  | [c1] =>
    have h1 := c1.isLt
    simp only [decodeSpec, RuneError, twoByte, isCont] at hd
    split_ifs at hd <;> obtain ⟨rfl, rfl⟩ := Prod.mk.inj hd <;> simp <;> omega
  | [c1, c2] =>
    have h1 := c1.isLt
    have h2 := c2.isLt
    simp only [decodeSpec, RuneError, twoByte, threeByte, isCont] at hd
    split_ifs at hd <;> obtain ⟨rfl, rfl⟩ := Prod.mk.inj hd <;> simp <;> omega
  | c1 :: c2 :: c3 :: t =>
    have h1 := c1.isLt
    have h2 := c2.isLt
    have h3 := c3.isLt
    simp only [decodeSpec, RuneError, twoByte, threeByte, fourByte, isCont] at hd
    split_ifs at hd <;> obtain ⟨rfl, rfl⟩ := Prod.mk.inj hd <;> simp <;> omega

theorem decodeSpec_second_ascii (b c1 : Fin 256) (x : GoString) (hb : 0x80 ≤ b.val) (h1 : c1.val < 0x80) :
    decodeSpec (b :: c1 :: x) = (RuneError, 1) := by
  match x with
  | [] => simp only [decodeSpec, twoByte, isCont]; split_ifs <;> first | rfl | omega
  | [c2] => simp only [decodeSpec, twoByte, threeByte, isCont]; split_ifs <;> first | rfl | omega
  | c2 :: c3 :: x =>
    simp only [decodeSpec, twoByte, threeByte, fourByte, isCont]; split_ifs <;> first | rfl | omega

theorem decodeSpec_third_ascii (b c1 c2 : Fin 256) (x : GoString) (h2 : c2.val < 0x80) :
    decodeSpec (b :: c1 :: c2 :: x) = decodeSpec [b, c1] := by
  match x with
  | [] => simp only [decodeSpec, twoByte, threeByte, isCont]; split_ifs <;> first | rfl | omega
  | c3 :: x =>
    simp only [decodeSpec, twoByte, threeByte, fourByte, isCont]; split_ifs <;> first | rfl | omega

theorem decodeSpec_fourth_ascii (b c1 c2 c3 : Fin 256) (x : GoString) (h3 : c3.val < 0x80) :
    decodeSpec (b :: c1 :: c2 :: c3 :: x) = decodeSpec [b, c1, c2] := by
  simp only [decodeSpec, twoByte, threeByte, fourByte, isCont]; split_ifs <;> first | rfl | omega

theorem decodeSpec_four_bytes (b c1 c2 c3 : Fin 256) (x y : GoString) :
    decodeSpec (b :: c1 :: c2 :: c3 :: x) = decodeSpec (b :: c1 :: c2 :: c3 :: y) := by
  simp only [decodeSpec]

theorem insertSeparatorsFrom_cons_ascii (j : Nat) (c : Fin 256) (t : GoString)
    (hc : c.val < 0x80) :
    ∃ c1 x, insertSeparatorsFrom j (c :: t) = c1 :: x ∧ c1.val < 0x80 := by
  simp only [insertSeparatorsFrom]
  split_ifs
  · exact ⟨byte 0x5F, _, rfl, by decide⟩
  · exact ⟨c, _, rfl, hc⟩

theorem insertSeparatorsFrom_cons_high (j : Nat) (c : Fin 256) (t : GoString)
    (hc : 0x80 ≤ c.val) :
    insertSeparatorsFrom j (c :: t) = c :: insertSeparatorsFrom (j + 1) t := by
  simp only [insertSeparatorsFrom]
  rw [if_neg (by omega)]

theorem Decode_insertSeparators (b : Fin 256) (j : Nat) (t : GoString) :
    DecodeRuneInString (b :: insertSeparatorsFrom j t) = DecodeRuneInString (b :: t) := by
  by_cases hb : b.val < 0x80
  · rw [Decode_ascii _ _ hb, Decode_ascii _ _ hb]
  have hb : 0x80 ≤ b.val := by omega
  rw [Decode_eq_spec, Decode_eq_spec]
  match t with
  | [] => rfl
  | c1 :: t1 =>
    by_cases h1 : c1.val < 0x80
    · obtain ⟨d, x, hx, hd⟩ := insertSeparatorsFrom_cons_ascii j c1 t1 h1
      rw [hx, decodeSpec_second_ascii _ _ _ hb hd, decodeSpec_second_ascii _ _ _ hb h1]
    rw [insertSeparatorsFrom_cons_high _ _ _ (by omega)]
    match t1 with
    | [] => rfl
    | c2 :: t2 =>
      by_cases h2 : c2.val < 0x80
      · obtain ⟨d, x, hx, hd⟩ := insertSeparatorsFrom_cons_ascii (j + 1) c2 t2 h2
        rw [hx, decodeSpec_third_ascii _ _ _ _ hd, decodeSpec_third_ascii _ _ _ _ h2]
      rw [insertSeparatorsFrom_cons_high _ _ _ (by omega)]
      match t2 with
      | [] => rfl
      | c3 :: t3 =>
        by_cases h3 : c3.val < 0x80
        · obtain ⟨d, x, hx, hd⟩ := insertSeparatorsFrom_cons_ascii (j + 1 + 1) c3 t3 h3
          rw [hx, decodeSpec_fourth_ascii _ _ _ _ _ hd, decodeSpec_fourth_ascii _ _ _ _ _ h3]
        rw [insertSeparatorsFrom_cons_high _ _ _ (by omega)]
        exact decodeSpec_four_bytes _ _ _ _ _ _

/-! ## Encoding and decoding -/

theorem byte_val_of_lt (n : Nat) (h : n < 256) : (byte n).val = n := by
  simp [byte, Nat.mod_eq_of_lt h]

theorem encodeRune_length_pos (r : Nat) : 1 ≤ (encodeRune r).length := by
  simp only [encodeRune]
  split_ifs <;> simp

theorem Decode_encodeRune (r : Nat) (rest : GoString) (hr : validRune r) :
    DecodeRuneInString (encodeRune r ++ rest) = (r, (encodeRune r).length) := by
  rw [Decode_eq_spec]
  unfold validRune at hr
  by_cases h1 : r ≤ 0x7F
  · have e : encodeRune r = [byte r] := by simp [encodeRune, h1]
    have hv : (byte r).val = r := byte_val_of_lt r (by omega)
    simp only [e, List.singleton_append, decodeSpec, hv, List.length_singleton]
    rw [if_pos (by omega)]
  by_cases h2 : r ≤ 0x7FF
  · have e : encodeRune r = [byte (0xC0 + r / 64), byte (0x80 + r % 64)] := by
      simp [encodeRune, h1, h2]
    have hv0 : (byte (0xC0 + r / 64)).val = 0xC0 + r / 64 := byte_val_of_lt _ (by omega)
    have hv1 : (byte (0x80 + r % 64)).val = 0x80 + r % 64 := byte_val_of_lt _ (by omega)
    rw [e]
    match rest with
    | [] =>
      simp only [List.cons_append, List.nil_append, decodeSpec, hv0, hv1, twoByte, isCont,
        List.length_cons, List.length_nil]
      split_ifs <;> first | omega | (refine Prod.ext ?_ rfl; simp only; omega)
    | [c2] =>
      simp only [List.cons_append, List.nil_append, decodeSpec, hv0, hv1, twoByte, isCont,
        List.length_cons, List.length_nil]
      split_ifs <;> first | omega | (refine Prod.ext ?_ rfl; simp only; omega)
    | c2 :: c3 :: x =>
      simp only [List.cons_append, List.nil_append, decodeSpec, hv0, hv1, twoByte, isCont,
        List.length_cons, List.length_nil]
      split_ifs <;> first | omega | (refine Prod.ext ?_ rfl; simp only; omega)
  have hr3 : ¬ (r > 0x10FFFF ∨ (0xD800 ≤ r ∧ r ≤ 0xDFFF)) := by omega
  by_cases h3 : r ≤ 0xFFFF
  · have e : encodeRune r =
        [byte (0xE0 + r / 4096), byte (0x80 + r / 64 % 64), byte (0x80 + r % 64)] := by
      simp [encodeRune, h1, h2, hr3, h3]
    have hv0 : (byte (0xE0 + r / 4096)).val = 0xE0 + r / 4096 := byte_val_of_lt _ (by omega)
    have hv1 : (byte (0x80 + r / 64 % 64)).val = 0x80 + r / 64 % 64 :=
      byte_val_of_lt _ (by omega)
    have hv2 : (byte (0x80 + r % 64)).val = 0x80 + r % 64 := byte_val_of_lt _ (by omega)
    rw [e]
    match rest with
    | [] =>
      simp only [List.cons_append, List.nil_append, decodeSpec, hv0, hv1, hv2, twoByte,
        threeByte, isCont, List.length_cons, List.length_nil]
      split_ifs <;> first | omega | (refine Prod.ext ?_ rfl; simp only; omega)
    | c3 :: x =>
      simp only [List.cons_append, List.nil_append, decodeSpec, hv0, hv1, hv2, twoByte,
        threeByte, isCont, List.length_cons, List.length_nil]
      split_ifs <;> first | omega | (refine Prod.ext ?_ rfl; simp only; omega)
  · have e : encodeRune r =
        [byte (0xF0 + r / 262144), byte (0x80 + r / 4096 % 64), byte (0x80 + r / 64 % 64),
          byte (0x80 + r % 64)] := by
      simp [encodeRune, h1, h2, hr3, h3]
    have hv0 : (byte (0xF0 + r / 262144)).val = 0xF0 + r / 262144 :=
      byte_val_of_lt _ (by omega)
    have hv1 : (byte (0x80 + r / 4096 % 64)).val = 0x80 + r / 4096 % 64 :=
      byte_val_of_lt _ (by omega)
    have hv2 : (byte (0x80 + r / 64 % 64)).val = 0x80 + r / 64 % 64 :=
      byte_val_of_lt _ (by omega)
    have hv3 : (byte (0x80 + r % 64)).val = 0x80 + r % 64 := byte_val_of_lt _ (by omega)
    rw [e]
    simp only [List.cons_append, List.nil_append, decodeSpec, hv0, hv1, hv2, hv3, twoByte,
      threeByte, fourByte, isCont, List.length_cons, List.length_nil]
    split_ifs <;> first | omega | (refine Prod.ext ?_ rfl; simp only; omega)

theorem runesFrom_length_append (a rest : GoString) :
    runesFrom a.length (a ++ rest) = runesFrom 0 rest := by
  induction a with
  | nil => rfl
  | cons c a ih => simpa [runesFrom] using ih

theorem runesFrom_encodeRune (r : Nat) (rest : GoString) (hr : validRune r) :
    runesFrom 0 (encodeRune r ++ rest) = r :: runesFrom 0 rest := by
  have hd := Decode_encodeRune r rest hr
  have hl := encodeRune_length_pos r
  cases he : encodeRune r with
  | nil => rw [he] at hl; simp at hl
  | cons b a =>
    rw [he] at hd
    simp only [List.cons_append] at hd ⊢
    simp only [runesFrom, hd, List.length_cons, Nat.add_sub_cancel]
    rw [runesFrom_length_append]

theorem runesFrom_encodeAll (rs : List Nat) (rest : GoString) (h : ∀ r ∈ rs, validRune r) :
    runesFrom 0 (encodeAll rs ++ rest) = rs ++ runesFrom 0 rest := by
  induction rs with
  | nil => rfl
  | cons r rs ih =>
    have h1 : validRune r := h r (List.mem_cons_self _ _)
    have h2 : ∀ x ∈ rs, validRune x := fun x hx => h x (List.mem_cons_of_mem _ hx)
    simp only [encodeAll, List.flatMap_cons, List.append_assoc] at ih ⊢
    rw [runesFrom_encodeRune _ _ h1, ih h2]
    rfl

theorem runesFrom_valid (s : GoString) : ∀ k, ∀ r ∈ runesFrom k s, validRune r := by
  induction s with
  | nil => intro k r hr; simp [runesFrom] at hr
  | cons b t ih =>
    intro k r hr
    cases k with
    | zero =>
      simp only [runesFrom, List.mem_cons] at hr
      rcases hr with rfl | hr
      · exact (Decode_bounds b t _ _ rfl).2.2.1
      · exact ih _ r hr
    | succ k => exact ih k r (by simpa [runesFrom] using hr)

theorem map_snd_rangeFrom (s : GoString) :
    ∀ k i, (rangeFrom k i s).map Prod.snd = runesFrom k s := by
  induction s with
  | nil => intro k i; cases k <;> rfl
  | cons b t ih =>
    intro k i
    cases k with
    | zero => simp [rangeFrom, runesFrom, ih]
    | succ k => simp [rangeFrom, runesFrom, ih]

theorem rangeFrom_index_ge (s : GoString) : ∀ k i, ∀ p ∈ rangeFrom k i s, i ≤ p.1 := by
  induction s with
  | nil => intro k i p hp; cases k <;> simp [rangeFrom] at hp
  | cons b t ih =>
    intro k i p hp
    cases k with
    | zero =>
      simp only [rangeFrom, List.mem_cons] at hp
      rcases hp with rfl | hp
      · exact Nat.le_refl _
      · exact Nat.le_of_succ_le (ih _ _ p hp)
    | succ k =>
      simp only [rangeFrom] at hp
      exact Nat.le_of_succ_le (ih _ _ p hp)

theorem runes_eq (s : GoString) : runes s = runesFrom 0 s := map_snd_rangeFrom s 0 0

theorem sepRunes_cons_high (r : Nat) (rs : List Nat) (h : ¬ (0x41 ≤ r ∧ r ≤ 0x5A)) :
    sepRunes (r :: rs) = r :: sepRunes rs := by
  simp [sepRunes, h]

theorem runesFrom_insertSeparators (s : GoString) :
    ∀ (k j : Nat), (∀ c ∈ s.take k, 0x80 ≤ c.val) →
      runesFrom k (insertSeparatorsFrom (j + 1) s) = sepRunes (runesFrom k s) := by
  induction s with
  | nil => intro k j _; simp [insertSeparatorsFrom, runesFrom, sepRunes]
  | cons c t ih =>
    intro k j hk
    cases k with
    | succ k =>
      have hc : 0x80 ≤ c.val := hk c (by simp)
      rw [insertSeparatorsFrom_cons_high _ _ _ hc]
      simp only [runesFrom]
      exact ih k (j + 1) (fun x hx => hk x (by simp [hx]))
    | zero =>
      by_cases hc : c.val < 0x80
      · have hdc : ∀ x, DecodeRuneInString (c :: x) = (c.val, 1) := fun x => Decode_ascii c x hc
        simp only [insertSeparatorsFrom]
        split_ifs with hu
        · have hd5 : ∀ x, DecodeRuneInString (byte 0x5F :: x) = (0x5F, 1) :=
            fun x => Decode_ascii (byte 0x5F) x (by decide)
          simp only [runesFrom, hd5, hdc, Nat.sub_self]
          rw [ih 0 (j + 1) (by simp)]
          simp [sepRunes, hu.2]
        · simp only [runesFrom, hdc, Nat.sub_self]
          rw [ih 0 (j + 1) (by simp)]
          have hu2 : ¬ (0x41 ≤ c.val ∧ c.val ≤ 0x5A) := fun h => hu ⟨Nat.succ_pos _, h⟩
          simp [sepRunes, hu2]
      · have hc : 0x80 ≤ c.val := by omega
        rw [insertSeparatorsFrom_cons_high _ _ _ hc]
        simp only [runesFrom, Decode_insertSeparators]
        have hp := Decode_bounds c t (DecodeRuneInString (c :: t)).1
          (DecodeRuneInString (c :: t)).2 rfl
        rw [ih _ (j + 1) hp.2.2.2.2, sepRunes_cons_high]
        have := hp.2.2.2.1 hc
        omega

/-! ## `strings.Map` and `strings.ToLower` on runes -/

theorem Map_foldl {σ : Type} (mapping : σ → Nat → Nat × σ) (l : List (Nat × Nat)) :
    ∀ (acc : GoString) (st : σ),
      (l.foldl (fun (a : GoString × σ) (ir : Nat × Nat) =>
          (a.1 ++ encodeRune (mapping a.2 ir.2).1, (mapping a.2 ir.2).2)) (acc, st)).1
        = acc ++ encodeAll (mapRunes mapping st (l.map Prod.snd)) := by
  induction l with
  | nil => intro acc st; simp [mapRunes, encodeAll]
  | cons p l ih =>
    intro acc st
    simp only [List.foldl_cons, List.map_cons, mapRunes, ih]
    simp [encodeAll]

theorem Map_eq {σ : Type} (mapping : σ → Nat → Nat × σ) (st : σ) (s : GoString) :
    strings.Map mapping st s = encodeAll (mapRunes mapping st (runes s)) := by
  unfold strings.Map runes
  rw [Map_foldl]
  simp

theorem mapRunes_unit (f : Nat → Nat) (rs : List Nat) :
    mapRunes (fun (_ : Unit) r => (f r, ())) () rs = rs.map f := by
  induction rs with
  | nil => rfl
  | cons r rs ih => simp [mapRunes, ih]

theorem runesFrom_ascii (s : GoString) (h : ∀ c ∈ s, c.val < 0x80) :
    runesFrom 0 s = s.map (fun c => c.val) := by
  induction s with
  | nil => rfl
  | cons c t ih =>
    have hc : c.val < 0x80 := h c (List.mem_cons_self _ _)
    simp only [runesFrom, Decode_ascii c t hc, Nat.sub_self, List.map_cons]
    rw [ih (fun x hx => h x (List.mem_cons_of_mem _ hx))]

theorem encodeRune_ascii (r : Nat) (h : r ≤ 0x7F) : encodeRune r = [byte r] := by
  simp [encodeRune, h]

theorem byte_val (c : Fin 256) : byte c.val = c := by
  apply Fin.ext
  simp [byte, Nat.mod_eq_of_lt c.isLt]

theorem ToLower_eq (U : UnicodeTables) (s : GoString) :
    strings.ToLower U s = encodeAll ((runesFrom 0 s).map (unicode.ToLower U)) := by
  unfold strings.ToLower
  by_cases hA : s.all (fun c => decide (c.val < 0x80)) = true
  · have hall : ∀ c ∈ s, c.val < 0x80 := by simpa using hA
    simp only [hA, if_true]
    rw [runesFrom_ascii s hall]
    have key : ∀ t : GoString, (∀ c ∈ t, c.val < 0x80) →
        encodeAll ((t.map (fun c => c.val)).map (unicode.ToLower U))
          = t.map (fun c => if 0x41 ≤ c.val ∧ c.val ≤ 0x5A then byte (c.val + 32) else c) := by
      intro t ht
      induction t with
      | nil => rfl
      | cons c t ih =>
        have hc : c.val < 0x80 := ht c (List.mem_cons_self _ _)
        have iht := ih (fun x hx => ht x (List.mem_cons_of_mem _ hx))
        simp only [encodeAll, List.map_cons, List.flatMap_cons] at iht ⊢
        rw [iht]
        have : encodeRune (unicode.ToLower U c.val)
            = [if 0x41 ≤ c.val ∧ c.val ≤ 0x5A then byte (c.val + 32) else c] := by
          unfold unicode.ToLower
          rw [if_pos (by omega)]
          split_ifs with hu
          · exact encodeRune_ascii _ (by omega)
          · rw [encodeRune_ascii _ (by omega), byte_val]
        rw [this]
        rfl
    rw [key s hall]
    split_ifs with hU
    · have hno : ∀ c ∈ s, ¬ (0x41 ≤ c.val ∧ c.val ≤ 0x5A) := by simpa using hU
      symm
      calc s.map (fun c => if 0x41 ≤ c.val ∧ c.val ≤ 0x5A then byte (c.val + 32) else c)
          = s.map id := List.map_congr_left (fun c hc => by simp [hno c hc])
        _ = s := List.map_id s
    · rfl
  · simp only [hA]
    rw [Map_eq, mapRunes_unit, runes_eq]
    rfl

/-! ## The loop of `snakeCase` -/

theorem snake_foldl (l : List (Nat × Nat)) :
    ∀ acc : GoString,
      l.foldl (fun (result : GoString) (ir : Nat × Nat) =>
        (if ir.1 > 0 ∧ ir.2 ≥ 0x41 ∧ ir.2 ≤ 0x5A then result ++ encodeRune 0x5F else result)
          ++ encodeRune ir.2) acc
      = acc ++ l.flatMap (fun ir =>
          (if ir.1 > 0 ∧ ir.2 ≥ 0x41 ∧ ir.2 ≤ 0x5A then encodeRune 0x5F else [])
            ++ encodeRune ir.2) := by
  induction l with
  | nil => intro acc; simp
  | cons p l ih =>
    intro acc
    simp only [List.foldl_cons, List.flatMap_cons, ih]
    split_ifs <;> simp

theorem snake_flatMap_tail (l : List (Nat × Nat)) (h : ∀ p ∈ l, 1 ≤ p.1) :
    l.flatMap (fun ir =>
        (if ir.1 > 0 ∧ ir.2 ≥ 0x41 ∧ ir.2 ≤ 0x5A then encodeRune 0x5F else [])
          ++ encodeRune ir.2)
      = encodeAll (sepRunes (l.map Prod.snd)) := by
  induction l with
  | nil => rfl
  | cons p l ih =>
    have hp : 1 ≤ p.1 := h p (List.mem_cons_self _ _)
    have ih2 := ih (fun x hx => h x (List.mem_cons_of_mem _ hx))
    simp only [List.flatMap_cons, List.map_cons, ih2]
    by_cases hu : 0x41 ≤ p.2 ∧ p.2 ≤ 0x5A
    · have hc : p.1 > 0 ∧ p.2 ≥ 0x41 ∧ p.2 ≤ 0x5A := ⟨hp, hu.1, hu.2⟩
      simp [sepRunes, encodeAll, hu, hc]
    · have hc : ¬ (p.1 > 0 ∧ p.2 ≥ 0x41 ∧ p.2 ≤ 0x5A) := fun h => hu ⟨h.2.1, h.2.2⟩
      simp [sepRunes, encodeAll, hu, hc]

theorem sepRunes_valid (rs : List Nat) (h : ∀ r ∈ rs, validRune r) :
    ∀ r ∈ sepRunes rs, validRune r := by
  intro r hr
  simp only [sepRunes, List.mem_flatMap] at hr
  obtain ⟨x, hx, hrx⟩ := hr
  split_ifs at hrx
  · simp only [List.mem_cons, List.mem_singleton, List.not_mem_nil, or_false] at hrx
    rcases hrx with rfl | rfl
    · exact Or.inl (by decide)
    · exact h _ hx
  · simp only [List.mem_singleton] at hrx
    subst hrx
    exact h _ hx

theorem snakeCase_eq_insertSeparators (U : UnicodeTables) (s : GoString) :
    snakeCase U s = strings.ToLower U (insertSeparatorsFrom 0 s) := by
  unfold snakeCase
  rw [ToLower_eq, ToLower_eq, snake_foldl, List.nil_append]
  congr 2
  cases s with
  | nil => rfl
  | cons b t =>
    have hp := Decode_bounds b t (DecodeRuneInString (b :: t)).1
      (DecodeRuneInString (b :: t)).2 rfl
    have hins : insertSeparatorsFrom 0 (b :: t) = b :: insertSeparatorsFrom (0 + 1) t := by
      simp [insertSeparatorsFrom]
    rw [hins]
    simp only [runesFrom, Decode_insertSeparators]
    rw [runesFrom_insertSeparators t _ 0 hp.2.2.2.2]
    simp only [rangeString, rangeFrom, List.flatMap_cons]
    rw [snake_flatMap_tail _ (fun p hp => rangeFrom_index_ge t _ _ p hp), map_snd_rangeFrom]
    have h0 : ¬ (0 > 0 ∧ (DecodeRuneInString (b :: t)).1 ≥ 0x41
        ∧ (DecodeRuneInString (b :: t)).1 ≤ 0x5A) := by omega
    rw [if_neg h0, List.nil_append]
    have hv : ∀ r ∈ (DecodeRuneInString (b :: t)).1 ::
        sepRunes (runesFrom ((DecodeRuneInString (b :: t)).2 - 1) t), validRune r := by
      intro r hr
      rcases List.mem_cons.mp hr with rfl | hr
      · exact hp.2.2.1
      · exact sepRunes_valid _ (runesFrom_valid t _) r hr
    have := runesFrom_encodeAll _ [] hv
    simpa [encodeAll, runesFrom] using this

theorem insertBeforeUpper_ascii (U : UnicodeTables) (t : GoString)
    (h : ∀ c ∈ t, c.val < 0x80) :
    ∀ j : Nat, encodeAll (insertBeforeUpper U (t.map (fun c => c.val)))
      = insertSeparatorsFrom (j + 1) t := by
  induction t with
  | nil => intro j; rfl
  | cons c t ih =>
    intro j
    have hc : c.val < 0x80 := h c (List.mem_cons_self _ _)
    have iht := ih (fun x hx => h x (List.mem_cons_of_mem _ hx)) (j + 1)
    have hle : c.val ≤ 0x7F := by omega
    simp only [encodeAll, insertBeforeUpper, List.map_cons, List.flatMap_cons,
      List.flatMap_append] at iht ⊢
    simp only [insertSeparatorsFrom, unicode.IsUpper, hle, if_true, decide_eq_true_eq]
    by_cases hu : 0x41 ≤ c.val ∧ c.val ≤ 0x5A
    · have hj : j + 1 > 0 ∧ 0x41 ≤ c.val ∧ c.val ≤ 0x5A := ⟨Nat.succ_pos _, hu⟩
      rw [if_pos hu, if_pos hj, ← iht]
      simp only [List.flatMap_cons, List.flatMap_nil, List.append_nil,
        encodeRune_ascii 0x5F (by decide), encodeRune_ascii c.val hle, byte_val,
        List.singleton_append, List.cons_append, List.nil_append]
      rfl
    · have hj : ¬ (j + 1 > 0 ∧ 0x41 ≤ c.val ∧ c.val ≤ 0x5A) := fun hh => hu hh.2
      rw [if_neg hu, if_neg hj, ← iht]
      simp only [List.flatMap_cons, List.flatMap_nil, List.append_nil,
        encodeRune_ascii c.val hle, byte_val, List.singleton_append]
      rfl

theorem snakeCase_eq_ToSnakeCase_of_ascii (U : UnicodeTables) (s : GoString)
    (h : ∀ c ∈ s, c.val < 0x80) : snakeCase U s = ToSnakeCase U s := by
  rw [snakeCase_eq_insertSeparators]
  unfold ToSnakeCase
  congr 1
  rw [runes_eq, runesFrom_ascii s h]
  cases s with
  | nil => rfl
  | cons c t =>
    have hc : c.val < 0x80 := h c (List.mem_cons_self _ _)
    have ht : ∀ x ∈ t, x.val < 0x80 := fun x hx => h x (List.mem_cons_of_mem _ hx)
    have h0 : ¬ (0 > 0 ∧ 0x41 ≤ c.val ∧ c.val ≤ 0x5A) := by omega
    have key := insertBeforeUpper_ascii U t ht 0
    simp only [encodeAll] at key
    simp only [List.map_cons, insertSeparatorsFrom, if_neg h0, encodeAll, List.flatMap_cons,
      encodeRune_ascii c.val (by omega), byte_val, List.singleton_append, key]

/-! ## `strings.Title` -/

theorem mapRunes_title (U : UnicodeTables) (rs : List Nat) :
    ∀ prev : Nat,
      mapRunes (fun (prev : Nat) r =>
          (if strings.isSeparator U prev then unicode.ToTitle U r else r, r)) prev rs
        = List.zipWith
            (fun prev r => if strings.isSeparator U prev then unicode.ToTitle U r else r)
            (prev :: rs) rs := by
  induction rs with
  | nil => intro prev; rfl
  | cons r rs ih =>
    intro prev
    simp only [mapRunes, List.zipWith_cons_cons, ih]

theorem Title_eq (U : UnicodeTables) (s : GoString) :
    strings.Title U s = encodeAll (titleRunes U (runes s)) := by
  unfold strings.Title titleRunes
  rw [Map_eq, mapRunes_title]

theorem isSeparator_ascii (U : UnicodeTables) (r : Nat) (h : r ≤ 0x7F) :
    strings.isSeparator U r = true ↔
      ¬ ((0x30 ≤ r ∧ r ≤ 0x39) ∨ (0x41 ≤ r ∧ r ≤ 0x5A) ∨ (0x61 ≤ r ∧ r ≤ 0x7A) ∨ r = 0x5F) := by
  unfold strings.isSeparator
  rw [if_pos h]
  split_ifs <;> simp <;> omega

theorem isSeparator_non_ascii (U : UnicodeTables) (r : Nat) (h : 0x7F < r) :
    strings.isSeparator U r = true ↔
      (U.isLetter r = false ∧ U.isDigit r = false ∧ U.isSpace r = true) := by
  unfold strings.isSeparator
  rw [if_neg (by omega)]
  cases hl : U.isLetter r <;> cases hd : U.isDigit r <;> simp

theorem isSeparator_word (U : UnicodeTables) (c : Fin 256) (h : isWordByte c) :
    strings.isSeparator U c.val = false := by
  unfold isWordByte at h
  unfold strings.isSeparator
  have := c.isLt
  rw [if_pos (by omega)]
  split_ifs <;> first | rfl | omega

theorem titleRunes_word (U : UnicodeTables) (t : GoString) (h : ∀ c ∈ t, isWordByte c) :
    ∀ c : Fin 256, isWordByte c →
      List.zipWith (fun prev r => if strings.isSeparator U prev then unicode.ToTitle U r else r)
        (c.val :: t.map (fun x => x.val)) (t.map (fun x => x.val)) = t.map (fun x => x.val) := by
  induction t with
  | nil => intro c _; rfl
  | cons d t ih =>
    intro c hc
    simp only [List.map_cons, List.zipWith_cons_cons, isSeparator_word U c hc]
    rw [ih (fun x hx => h x (List.mem_cons_of_mem _ hx)) d (h d (List.mem_cons_self _ _))]
    rfl

theorem encodeAll_ascii (t : GoString) (h : ∀ c ∈ t, c.val < 0x80) :
    encodeAll (t.map (fun x => x.val)) = t := by
  induction t with
  | nil => rfl
  | cons c t ih =>
    have hc := h c (List.mem_cons_self _ _)
    simp only [encodeAll, List.map_cons, List.flatMap_cons] at ih ⊢
    rw [ih (fun x hx => h x (List.mem_cons_of_mem _ hx)), encodeRune_ascii _ (by omega),
      byte_val]
    rfl

theorem isWordByte_ascii (c : Fin 256) (h : isWordByte c) : c.val < 0x80 := by
  unfold isWordByte at h
  omega

theorem Title_word (U : UnicodeTables) (s : GoString) (h : ∀ c ∈ s, isWordByte c) :
    strings.Title U s = ToUpperCamel U s := by
  have hA : ∀ c ∈ s, c.val < 0x80 := fun c hc => isWordByte_ascii c (h c hc)
  rw [Title_eq, runes_eq, runesFrom_ascii s hA]
  cases s with
  | nil => rfl
  | cons c t =>
    have hc : c.val < 0x80 := hA c (List.mem_cons_self _ _)
    have ht : ∀ x ∈ t, isWordByte x := fun x hx => h x (List.mem_cons_of_mem _ hx)
    have htA : ∀ x ∈ t, x.val < 0x80 := fun x hx => hA x (List.mem_cons_of_mem _ hx)
    have hsp : strings.isSeparator U 0x20 = true := by
      unfold strings.isSeparator
      rfl
    simp only [titleRunes, ToUpperCamel, List.map_cons, List.zipWith_cons_cons, hsp, if_true,
      Decode_ascii c t hc, List.drop_succ_cons, List.drop_zero]
    rw [titleRunes_word U t ht c (h c (List.mem_cons_self _ _))]
    have hTU : unicode.ToTitle U c.val = unicode.ToUpper U c.val := by
      have hle : c.val ≤ 0x7F := by omega
      simp only [unicode.ToTitle, unicode.ToUpper, hle, if_true]
    simp only [encodeAll, List.flatMap_cons] 
    rw [hTU]
    congr 1
    exact encodeAll_ascii t htA

/-! ## `camelCase` -/

theorem slice_front (c : Fin 256) (t : GoString) : slice (c :: t) 0 1 = .ok [c] := by
  simp [slice]

theorem slice_back (c : Fin 256) (t : GoString) :
    slice (c :: t) 1 (c :: t).length = .ok t := by
  simp [slice]

theorem camelCase_cons (U : UnicodeTables) (c : Fin 256) (t : GoString) :
    camelCase U (c :: t) = .ok (strings.ToLower U [c] ++ t) := by
  unfold camelCase
  rw [if_neg (by simp), slice_front]
  simp only [slice_back]

theorem camelCase_ascii_first (U : UnicodeTables) (c : Fin 256) (t : GoString)
    (hc : c.val < 0x80) : camelCase U (c :: t) = .ok (ToLowerCamel U (c :: t)) := by
  rw [camelCase_cons, ToLower_eq]
  simp only [ToLowerCamel, runesFrom, Decode_ascii c _ hc, Nat.sub_self, List.map_cons,
    List.map_nil, encodeAll, List.flatMap_cons, List.flatMap_nil, List.append_nil,
    List.drop_succ_cons, List.drop_zero]

theorem dartMethodName_eq_camelCase (U : UnicodeTables) (s : GoString) :
    dartMethodName U s = camelCase U s ∧
    dartMethodName U [] = .ok [] ∧
    (∀ (c : Fin 256) (t : GoString), c.val < 0x80 →
      dartMethodName U (c :: t) = .ok (ToLowerCamel U (c :: t))) ∧
    dartMethodName U (lit "GetBalance") = .ok (lit "getBalance") ∧
    mapDartType (lit "string") = lit "String" ∧ mapDartType (lit "uint64") = lit "int" :=
  ⟨rfl, rfl, fun c t hc => camelCase_ascii_first U c t hc, rfl, by decide, by decide⟩

theorem rangeFrom_length_le (s : GoString) : ∀ k i, (rangeFrom k i s).length ≤ s.length := by
  induction s with
  | nil => intro k i; cases k <;> simp [rangeFrom]
  | cons b t ih =>
    intro k i
    cases k with
    | zero => simpa [rangeFrom] using ih _ _
    | succ k => simpa [rangeFrom] using Nat.le_succ_of_le (ih _ _)

/-! ## Idempotence of `snakeCase` -/

theorem runesFrom_insertSeparators_zero (s : GoString) :
    runesFrom 0 (insertSeparatorsFrom 0 s) = snakeRunes (runesFrom 0 s) := by
  cases s with
  | nil => rfl
  | cons b t =>
    have hp := Decode_bounds b t (DecodeRuneInString (b :: t)).1
      (DecodeRuneInString (b :: t)).2 rfl
    have hins : insertSeparatorsFrom 0 (b :: t) = b :: insertSeparatorsFrom (0 + 1) t := by
      simp [insertSeparatorsFrom]
    rw [hins]
    simp only [runesFrom, Decode_insertSeparators, snakeRunes]
    rw [runesFrom_insertSeparators t _ 0 hp.2.2.2.2]

theorem snakeCase_eq_runes (U : UnicodeTables) (s : GoString) :
    snakeCase U s = encodeAll ((snakeRunes (runes s)).map (unicode.ToLower U)) := by
  rw [snakeCase_eq_insertSeparators, ToLower_eq, runesFrom_insertSeparators_zero, runes_eq]

theorem snakeRunes_valid (rs : List Nat) (h : ∀ r ∈ rs, validRune r) :
    ∀ r ∈ snakeRunes rs, validRune r := by
  cases rs with
  | nil => intro r hr; simp [snakeRunes] at hr
  | cons a rs =>
    intro r hr
    simp only [snakeRunes, List.mem_cons] at hr
    rcases hr with rfl | hr
    · exact h _ (List.mem_cons_self _ _)
    · exact sepRunes_valid rs (fun x hx => h x (List.mem_cons_of_mem _ hx)) r hr

theorem sepRunes_of_no_upper (rs : List Nat) (h : ∀ r ∈ rs, ¬ (0x41 ≤ r ∧ r ≤ 0x5A)) :
    sepRunes rs = rs := by
  induction rs with
  | nil => rfl
  | cons r rs ih =>
    rw [sepRunes_cons_high r rs (h r (List.mem_cons_self _ _)),
      ih (fun x hx => h x (List.mem_cons_of_mem _ hx))]

theorem snakeRunes_of_no_upper (rs : List Nat) (h : ∀ r ∈ rs, ¬ (0x41 ≤ r ∧ r ≤ 0x5A)) :
    snakeRunes rs = rs := by
  cases rs with
  | nil => rfl
  | cons r rs =>
    simp only [snakeRunes]
    rw [sepRunes_of_no_upper rs (fun x hx => h x (List.mem_cons_of_mem _ hx))]

theorem ToLower_not_upper_of_idem (U : UnicodeTables)
    (hidem : ∀ r, unicode.ToLower U (unicode.ToLower U r) = unicode.ToLower U r) (r : Nat) :
    ¬ (0x41 ≤ unicode.ToLower U r ∧ unicode.ToLower U r ≤ 0x5A) := by
  intro hu
  have h := hidem r
  have h2 : unicode.ToLower U (unicode.ToLower U r) = unicode.ToLower U r + 32 := by
    generalize unicode.ToLower U r = c at hu
    unfold unicode.ToLower
    rw [if_pos (by omega), if_pos hu]
  omega

theorem byte_high (n : Nat) (h1 : 0x80 ≤ n) (h2 : n < 256) : 0x80 ≤ (byte n).val := by
  rw [byte_val_of_lt n h2]
  exact h1

theorem encodeRune_bytes (r : Nat) (b : Fin 256) (hb : b ∈ encodeRune r) :
    (b.val = r ∧ r ≤ 0x7F) ∨ 0x80 ≤ b.val := by
  simp only [encodeRune, RuneError] at hb
  split_ifs at hb with h1 h2 h3 h4 h5
  · simp only [List.mem_singleton] at hb
    subst hb
    exact Or.inl ⟨byte_val_of_lt _ (by omega), h1⟩
  · simp only [List.mem_cons, List.mem_singleton, List.not_mem_nil, or_false] at hb
    rcases hb with rfl | rfl <;> exact Or.inr (byte_high _ (by omega) (by omega))
  · simp only [List.mem_cons, List.mem_singleton, List.not_mem_nil, or_false] at hb
    rcases hb with rfl | rfl | rfl <;> exact Or.inr (by decide)
  · simp only [List.mem_cons, List.mem_singleton, List.not_mem_nil, or_false] at hb
    exfalso
    omega
  · simp only [List.mem_cons, List.mem_singleton, List.not_mem_nil, or_false] at hb
    rcases hb with rfl | rfl | rfl <;> exact Or.inr (byte_high _ (by omega) (by omega))
  · simp only [List.mem_cons, List.mem_singleton, List.not_mem_nil, or_false] at hb
    rcases hb with rfl | rfl | rfl | rfl <;> exact Or.inr (byte_high _ (by omega) (by omega))

theorem encodeAll_no_upper (rs : List Nat) (h : ∀ r ∈ rs, ¬ (0x41 ≤ r ∧ r ≤ 0x5A)) :
    ∀ b ∈ encodeAll rs, ¬ (0x41 ≤ b.val ∧ b.val ≤ 0x5A) := by
  intro b hb
  simp only [encodeAll, List.mem_flatMap] at hb
  obtain ⟨r, hr, hbr⟩ := hb
  have hu := h r hr
  rcases encodeRune_bytes r b hbr with ⟨h1, _⟩ | h1 <;> omega

theorem snakeCase_idem_of (U : UnicodeTables)
    (hvalid : ∀ r, validRune r → validRune (unicode.ToLower U r))
    (hidem : ∀ r, unicode.ToLower U (unicode.ToLower U r) = unicode.ToLower U r)
    (s : GoString) :
    (∀ b ∈ snakeCase U s, ¬ (0x41 ≤ b.val ∧ b.val ≤ 0x5A)) ∧
    snakeCase U (snakeCase U s) = snakeCase U s := by
  have hR : ∀ r ∈ snakeRunes (runes s), validRune r := by
    rw [runes_eq]
    exact snakeRunes_valid _ (runesFrom_valid s 0)
  have hno : ∀ r ∈ (snakeRunes (runes s)).map (unicode.ToLower U),
      ¬ (0x41 ≤ r ∧ r ≤ 0x5A) := by
    intro r hr
    obtain ⟨x, _, rfl⟩ := List.mem_map.mp hr
    exact ToLower_not_upper_of_idem U hidem x
  have hval : ∀ r ∈ (snakeRunes (runes s)).map (unicode.ToLower U), validRune r := by
    intro r hr
    obtain ⟨x, hx, rfl⟩ := List.mem_map.mp hr
    exact hvalid x (hR x hx)
  constructor
  · rw [snakeCase_eq_runes]
    exact encodeAll_no_upper _ hno
  · have hy : runes (snakeCase U s) = (snakeRunes (runes s)).map (unicode.ToLower U) := by
      rw [snakeCase_eq_runes, runes_eq]
      have := runesFrom_encodeAll _ [] hval
      simpa [runesFrom] using this
    rw [snakeCase_eq_runes U (snakeCase U s), hy, snakeRunes_of_no_upper _ hno,
      snakeCase_eq_runes U s, List.map_map]
    congr 1
    apply List.map_congr_left
    intro r _
    exact hidem r

theorem latin1_ToLower_valid (r : Nat) (h : validRune r) :
    validRune (unicode.ToLower latin1 r) := by
  unfold validRune at h ⊢
  simp only [unicode.ToLower, latin1]
  split_ifs <;> omega

theorem latin1_ToLower_idem (r : Nat) :
    unicode.ToLower latin1 (unicode.ToLower latin1 r) = unicode.ToLower latin1 r := by
  simp only [unicode.ToLower, latin1]
  split_ifs <;> omega

/-! ## Association lists and maps -/

theorem assocFind_isSome_iff {κ ν : Type} [DecidableEq κ] (k : κ) (l : List (κ × ν)) :
    (assocFind k l).isSome = true ↔ ∃ v, (k, v) ∈ l := by
  induction l with
  | nil => simp [assocFind]
  | cons e t ih =>
    obtain ⟨k1, v1⟩ := e
    by_cases h : k1 = k
    · subst h
      simp only [assocFind, if_true, Option.isSome_some, true_iff]
      exact ⟨v1, List.mem_cons_self _ _⟩
    · simp only [assocFind, if_neg h, ih, List.mem_cons, Prod.mk.injEq]
      constructor
      · rintro ⟨v, hv⟩
        exact ⟨v, Or.inr hv⟩
      · rintro ⟨v, hv | hv⟩
        · exact absurd hv.1.symm h
        · exact ⟨v, hv⟩

theorem mem_assocKeys_iff {κ ν : Type} [DecidableEq κ] (k : κ) (l : List (κ × ν)) :
    k ∈ assocKeys l ↔ ∃ v, (k, v) ∈ l := by
  induction l with
  | nil => simp [assocKeys]
  | cons e t ih =>
    obtain ⟨k1, v1⟩ := e
    by_cases h : k1 ∈ assocKeys t
    · simp only [assocKeys, if_pos h, ih, List.mem_cons, Prod.mk.injEq]
      constructor
      · rintro ⟨v, hv⟩
        exact ⟨v, Or.inr hv⟩
      · rintro ⟨v, hv | hv⟩
        · obtain ⟨rfl, _⟩ := hv
          exact ih.mp h
        · exact ⟨v, hv⟩
    · simp only [assocKeys, if_neg h, List.mem_cons, ih, Prod.mk.injEq]
      constructor
      · rintro (hk | ⟨v, hv⟩)
        · exact ⟨v1, Or.inl ⟨hk, rfl⟩⟩
        · exact ⟨v, Or.inr hv⟩
      · rintro ⟨v, hv | hv⟩
        · exact Or.inl hv.1
        · exact Or.inr ⟨v, hv⟩

theorem assocKeys_nodup {κ ν : Type} [DecidableEq κ] (l : List (κ × ν)) :
    (assocKeys l).Nodup := by
  induction l with
  | nil => simp [assocKeys]
  | cons e t ih =>
    obtain ⟨k1, v1⟩ := e
    by_cases h : k1 ∈ assocKeys t
    · simpa [assocKeys, h] using ih
    · simpa [assocKeys, h] using ih

theorem GoMap.mem_keys_iff {κ ν : Type} [DecidableEq κ] (m : GoMap κ ν) (k : κ) :
    k ∈ m.keys ↔ (m.get k).isSome = true := by
  cases m with
  | nil => simp [GoMap.keys, GoMap.get]
  | mk kvs => simp only [GoMap.keys, GoMap.get, mem_assocKeys_iff, assocFind_isSome_iff]

theorem GoMap.keys_nodup {κ ν : Type} [DecidableEq κ] (m : GoMap κ ν) : m.keys.Nodup := by
  cases m with
  | nil => simp [GoMap.keys]
  | mk kvs => exact assocKeys_nodup kvs

theorem assocFind_mem {κ ν : Type} [DecidableEq κ] (k : κ) (v : ν) (l : List (κ × ν))
    (h : assocFind k l = some v) : (k, v) ∈ l := by
  induction l with
  | nil => simp [assocFind] at h
  | cons e t ih =>
    obtain ⟨k1, v1⟩ := e
    by_cases hk : k1 = k
    · simp only [assocFind, if_pos hk, Option.some.injEq] at h
      subst hk; subst h
      exact List.mem_cons_self _ _
    · simp only [assocFind, if_neg hk] at h
      exact List.mem_cons_of_mem _ (ih h)

theorem assocKeys_length_cons {κ ν : Type} [DecidableEq κ] (e : κ × ν) (l : List (κ × ν)) :
    (assocKeys l).length ≤ (assocKeys (e :: l)).length := by
  obtain ⟨k, v⟩ := e
  by_cases h : k ∈ assocKeys l
  · simp [assocKeys, h]
  · simp [assocKeys, h]

theorem assocKeys_length_append {κ ν : Type} [DecidableEq κ] (l1 l : List (κ × ν)) :
    (assocKeys l).length ≤ (assocKeys (l1 ++ l)).length := by
  induction l1 with
  | nil => exact Nat.le_refl _
  | cons e l1 ih => exact Nat.le_trans ih (assocKeys_length_cons e (l1 ++ l))

theorem GoMap.get_some_mem {κ ν : Type} [DecidableEq κ] (m : GoMap κ ν) (k : κ) (v : ν)
    (h : m.get k = some v) : (k, v) ∈ m.entries := by
  cases m with
  | nil => simp [GoMap.get] at h
  | mk kvs => exact assocFind_mem k v kvs h

/-! ## The registry -/

theorem registry_Get_found_iff {β : Type} (r : BackendRegistry β) (name : GoString) :
    (r.Get name).2 = true ↔ (r.backends.get name).isSome = true := by
  unfold BackendRegistry.Get
  cases h : r.backends.get name <;> simp

theorem registry_List_eq {β : Type} (r : BackendRegistry β) (order : List GoString) :
    r.List order = order := by
  have key : ∀ (l acc : List GoString),
      l.foldl (fun names name => names ++ [name]) acc = acc ++ l := by
    intro l
    induction l with
    | nil => intro acc; simp
    | cons a t ih => intro acc; simp [ih]
  simpa [BackendRegistry.List] using key order []

theorem registry_registerAll_mk {β : Type} (calls : List (GoString × Option β))
    (kvs : List (GoString × Option β)) :
    BackendRegistry.registerAll { backends := .mk kvs } calls
      = .ok { backends := .mk (calls.reverse ++ kvs) } := by
  induction calls generalizing kvs with
  | nil => simp [BackendRegistry.registerAll]
  | cons c t ih =>
    obtain ⟨name, backend⟩ := c
    simp only [BackendRegistry.registerAll, BackendRegistry.Register, GoMap.set, ih,
      List.reverse_cons, List.append_assoc, List.singleton_append]

theorem registry_Get_mk_cons {β : Type} (kvs : List (GoString × Option β)) (n m : GoString)
    (B : Option β) (h : m ≠ n) :
    ({ backends := .mk ((n, B) :: kvs) } : BackendRegistry β).Get m
      = ({ backends := .mk kvs } : BackendRegistry β).Get m := by
  simp only [BackendRegistry.Get, GoMap.get, assocFind, if_neg (Ne.symm h)]

theorem registry_Register_eq {β : Type} (r r1 : BackendRegistry β) (n : GoString)
    (B : Option β) (h : r.Register n B = .ok r1) :
    ∃ kvs, r = { backends := .mk kvs } ∧ r1 = { backends := .mk ((n, B) :: kvs) } := by
  obtain ⟨m⟩ := r
  cases m with
  | nil => simp [BackendRegistry.Register, GoMap.set] at h
  | mk kvs =>
    simp only [BackendRegistry.Register, GoMap.set, Except.ok.injEq] at h
    exact ⟨kvs, rfl, h.symm⟩

theorem registry_registerAll_eq {β : Type} (r r1 : BackendRegistry β)
    (calls : List (GoString × Option β)) (h : r.registerAll calls = .ok r1) :
    r1 = r ∨ ∃ kvs, r = { backends := .mk kvs } ∧
      r1 = { backends := .mk (calls.reverse ++ kvs) } := by
  obtain ⟨m⟩ := r
  cases m with
  | nil =>
    cases calls with
    | nil =>
      simp only [BackendRegistry.registerAll, Except.ok.injEq] at h
      exact Or.inl h.symm
    | cons c t =>
      obtain ⟨name, backend⟩ := c
      simp [BackendRegistry.registerAll, BackendRegistry.Register, GoMap.set] at h
  | mk kvs =>
    rw [registry_registerAll_mk] at h
    exact Or.inr ⟨kvs, rfl, (Except.ok.inj h).symm⟩

/-! ## The type table and file names -/

theorem MapType_fixes_entries :
    ∀ e ∈ TypeMappings.entries, ∀ p ∈ e.2.entries, MapType p.2 e.1 = p.2 := by
  decide

theorem takeWhile_not_sep (l : GoString) :
    ∀ c ∈ l.takeWhile (fun c => !filepath.IsPathSeparator c), c.val ≠ 0x2F := by
  intro c hc
  have := List.mem_takeWhile_imp hc
  simpa [filepath.IsPathSeparator] using this

theorem SafeFileName_shape (name : GoString) :
    SafeFileName name ≠ [] ∧
    (SafeFileName name = lit "/" ∨ byte 0x2F ∉ SafeFileName name) := by
  unfold SafeFileName filepath.Base
  split_ifs with h1 h2
  · exact ⟨by decide, Or.inr (by decide)⟩
  · exact ⟨by decide, Or.inl rfl⟩
  · refine ⟨h2, Or.inr ?_⟩
    intro hc
    unfold filepath.lastElement at hc
    exact takeWhile_not_sep _ _ (List.mem_reverse.mp hc) rfl

/-! ## The claims -/

/-- C1: when the target language has no table in `TypeMappings`, or the source
type is not a key of that table (exact match of the bytes), `MapType` returns
the source type unchanged. -/
theorem MapType_passthrough (T L : GoString)
    (h : TypeMappings.get L = none ∨ ∃ m, TypeMappings.get L = some m ∧ m.get T = none) :
    MapType T L = T := by
  unfold MapType
  rcases h with h | ⟨m, hm, hT⟩
  · rw [h]
  · rw [hm]
    simp only [hT]

theorem MapType_passthrough_witness :
    (TypeMappings.get (lit "klingon") = none ∧ MapType (lit "string") (lit "klingon") = lit "string") ∧
    MapType (lit "MyCustomType") (lit "dart") = lit "MyCustomType" ∧
    MapType (lit "STRING") (lit "dart") = lit "STRING" :=
  ⟨⟨by decide, MapType_passthrough _ _ (Or.inl (by decide))⟩,
    MapType_passthrough _ _ (Or.inr ⟨_, rfl, by decide⟩),
    MapType_passthrough _ _ (Or.inr ⟨_, rfl, by decide⟩)⟩

/-- C2: for each of the languages "dart", "python" and "rust", `TypeMappings`
has a table, and for every source type that is a key of it `MapType` returns
exactly the entry of the table. -/
theorem MapType_mapped (T L : GoString)
    (hL : L = lit "dart" ∨ L = lit "python" ∨ L = lit "rust") :
    ∃ m, TypeMappings.get L = some m ∧ ∀ v, m.get T = some v → MapType T L = v := by
  have key : ∀ m, TypeMappings.get L = some m → ∀ v, m.get T = some v → MapType T L = v := by
    intro m hm v hv
    unfold MapType
    rw [hm]
    simp only [hv]
  rcases hL with rfl | rfl | rfl
  · exact ⟨_, rfl, key _ rfl⟩
  · exact ⟨_, rfl, key _ rfl⟩
  · exact ⟨_, rfl, key _ rfl⟩

theorem MapType_mapped_witness :
    MapType (lit "string") (lit "dart") = lit "String" ∧
    MapType (lit "uint64") (lit "dart") = lit "int" ∧
    MapType (lit "[]byte") (lit "rust") = lit "Vec<u8>" ∧
    MapType (lit "time.Time") (lit "python") = lit "datetime.datetime" := by
  refine ⟨?_, ?_, ?_, ?_⟩
  · obtain ⟨m, hm, h⟩ := MapType_mapped (lit "string") (lit "dart") (Or.inl rfl)
    cases (Option.some.inj hm)
    exact h _ (by decide)
  · obtain ⟨m, hm, h⟩ := MapType_mapped (lit "uint64") (lit "dart") (Or.inl rfl)
    cases (Option.some.inj hm)
    exact h _ (by decide)
  · obtain ⟨m, hm, h⟩ := MapType_mapped (lit "[]byte") (lit "rust") (Or.inr (Or.inr rfl))
    cases (Option.some.inj hm)
    exact h _ (by decide)
  · obtain ⟨m, hm, h⟩ := MapType_mapped (lit "time.Time") (lit "python") (Or.inr (Or.inl rfl))
    cases (Option.some.inj hm)
    exact h _ (by decide)

/-- C3 (the claim fails): `dartClassName` changes a character after the first.
On "foo bar" it returns "Foo Bar", whatever the Unicode tables hold, where the
first character upper-cased and the remainder unchanged is "Foo bar": the 'b'
that follows the space is upper-cased too. -/
theorem dartClassName_title_cases_each_word :
    (∀ U : UnicodeTables, dartClassName U (lit "foo bar") = lit "Foo Bar") ∧
    (∀ U : UnicodeTables, ToUpperCamel U (lit "foo bar") = lit "Foo bar") ∧
    lit "Foo Bar" ≠ lit "Foo bar" :=
  ⟨fun _ => rfl, fun _ => rfl, by decide⟩

/-- C3 (amended): `dartClassName(s)` is `strings.Title(s)`, a word-boundary
title case over the runes of `s`, a byte that begins no valid UTF-8 sequence
counting as the rune U+FFFD: a rune is written as its title case exactly when it
is the first rune or the rune before it is a separator, and is written as it is
otherwise. A separator is, among the ASCII characters, every character other
than a letter, a digit and '_'; above U+007F it is a white-space character that
is neither a letter nor a digit, so '×' is no separator: "a×b" gives "A×b", and
the bytes `a . b FF c` give "A.B", U+FFFD, "c". On a string of ASCII letters,
digits and underscores only the first character is upper-cased; "" gives ""
and "foo" gives "Foo". -/
theorem dartClassName_word_boundary_title (U : UnicodeTables) (s : GoString) :
    dartClassName U s = encodeAll (titleRunes U (runes s)) ∧
    (∀ r, r ≤ 0x7F → (strings.isSeparator U r = true ↔
      ¬ ((0x30 ≤ r ∧ r ≤ 0x39) ∨ (0x41 ≤ r ∧ r ≤ 0x5A) ∨ (0x61 ≤ r ∧ r ≤ 0x7A) ∨
        r = 0x5F))) ∧
    (∀ r, 0x7F < r → (strings.isSeparator U r = true ↔
      (U.isLetter r = false ∧ U.isDigit r = false ∧ U.isSpace r = true))) ∧
    ((∀ c ∈ s, isWordByte c) → dartClassName U s = ToUpperCamel U s) ∧
    dartClassName U [] = [] ∧ dartClassName U (lit "foo") = lit "Foo" ∧
    dartClassName latin1 (lit "a×b") = lit "A×b" ∧
    dartClassName latin1 [0x61, 0x2E, 0x62, 0xFF, 0x63]
      = [0x41, 0x2E, 0x42, 0xEF, 0xBF, 0xBD, 0x63] :=
  ⟨Title_eq U s, isSeparator_ascii U, isSeparator_non_ascii U, Title_word U s, rfl, rfl,
    by decide, by decide⟩

/-- C4 (the claim fails): in "aÉ" the upper-case character 'É' is not the first
character, yet `snakeCase` writes no separator before it and returns "aé"; a
separator before every upper-case character gives "a_é". -/
theorem snakeCase_skips_non_ascii_upper :
    unicode.IsUpper latin1 0xC9 = true ∧
    snakeCase latin1 (lit "aÉ") = lit "aé" ∧ ToSnakeCase latin1 (lit "aÉ") = lit "a_é" := by
  decide

/-- C4 (amended): `snakeCase(s)` is the string obtained by inserting one '_'
immediately before every character 'A'..'Z' of `s` that is not at byte index 0
and then lower-casing the whole string with `strings.ToLower`; every character
'A'..'Z' gets a separator of its own (no collapsing of runs), so "FooBarBAZ"
gives "foo_bar_b_a_z" and "ABC" gives "a_b_c". On a string of ASCII characters
this is `ToSnakeCase` as specified. -/
theorem snakeCase_ascii_separators (U : UnicodeTables) (s : GoString) :
    snakeCase U s = strings.ToLower U (insertSeparatorsFrom 0 s) ∧
    ((∀ c ∈ s, c.val < 0x80) → snakeCase U s = ToSnakeCase U s) ∧
    snakeCase U (lit "FooBarBAZ") = lit "foo_bar_b_a_z" ∧
    snakeCase U (lit "ABC") = lit "a_b_c" :=
  ⟨snakeCase_eq_insertSeparators U s, snakeCase_eq_ToSnakeCase_of_ascii U s, rfl, rfl⟩

/-- C5 (defect of `camelCase`): the first character 'É' of "Éa" takes two bytes,
`s[:1]` keeps only the first of them, `strings.ToLower` turns that lone byte
into U+FFFD, and the second byte is left behind: the result is the bytes
EF BF BD 89 61 and not "éa", the string with its first character lower-cased. -/
theorem camelCase_splits_multibyte_first_character :
    camelCase latin1 (lit "Éa") = .ok [0xEF, 0xBF, 0xBD, 0x89, 0x61] ∧
    ToLowerCamel latin1 (lit "Éa") = lit "éa" := by
  decide

/-- C6: last write wins. Once `Register(n, B1)` has returned, `Register(n, B2)`
returns as well and `Get(n)` then yields `B2` with `found = true`, whatever the
registry held before (a binding for `n` included). -/
theorem Register_last_write_wins {β : Type} (r r1 : BackendRegistry β) (n : GoString)
    (B1 B2 : Option β) (h1 : r.Register n B1 = .ok r1) :
    ∃ r2, r1.Register n B2 = .ok r2 ∧ r2.Get n = (B2, true) := by
  obtain ⟨m⟩ := r
  cases m with
  | nil => simp [BackendRegistry.Register, GoMap.set] at h1
  | mk kvs =>
    simp only [BackendRegistry.Register, GoMap.set, Except.ok.injEq] at h1
    subst h1
    exact ⟨_, rfl, by simp [BackendRegistry.Get, GoMap.get, assocFind]⟩

theorem Register_last_write_wins_witness :
    ∃ r0 r1 r2, NewBackendRegistry = .ok r0 ∧
      r0.Get (lit "dart") = (some ShippedBackend.dart, true) ∧
      r0.Register (lit "dart") (some ShippedBackend.python) = .ok r1 ∧
      r1.Register (lit "dart") (some ShippedBackend.rust) = .ok r2 ∧
      r2.Get (lit "dart") = (some ShippedBackend.rust, true) := by
  obtain ⟨r2, h2, hget⟩ :=
    Register_last_write_wins
      ({ backends := .mk [(lit "go", some ShippedBackend.go), (lit "rust", some .rust),
          (lit "python", some .python), (lit "dart", some .dart)] })
      _ (lit "dart") (some ShippedBackend.python) (some ShippedBackend.rust) rfl
  exact ⟨_, _, r2, rfl, by decide, rfl, h2, hget⟩

/-- C7: `Get` never fails and its flag is exact. The registry reached from the
empty one by a finite sequence of `Register` calls exists, and `Get(name)`
reports `found = true` on it exactly when some call of the sequence registered
`name`. On the registry of `NewBackendRegistry` the flag is true exactly for
"dart", "python", "rust" and "go"; it is false for "nonexistent". Even on a nil
map `Get` returns, with `found = false`. -/
theorem Get_found_exact {β : Type} (calls : List (GoString × Option β)) (name : GoString) :
    (∃ r, (emptyRegistry β).registerAll calls = .ok r ∧
      ((r.Get name).2 = true ↔ ∃ c ∈ calls, c.1 = name)) ∧
    (∃ r, NewBackendRegistry = .ok r ∧
      ((r.Get name).2 = true ↔ name ∈ [lit "dart", lit "python", lit "rust", lit "go"]) ∧
      (r.Get (lit "nonexistent")).2 = false) ∧
    ({ backends := GoMap.nil } : BackendRegistry β).Get name = (none, false) := by
  refine ⟨?_, ?_, rfl⟩
  · refine ⟨_, registry_registerAll_mk calls [], ?_⟩
    rw [registry_Get_found_iff]
    simp only [GoMap.get, assocFind_isSome_iff, List.append_nil, List.mem_reverse]
    constructor
    · rintro ⟨v, hv⟩
      exact ⟨(name, v), hv, rfl⟩
    · rintro ⟨⟨k, v⟩, hc, rfl⟩
      exact ⟨v, hc⟩
  · refine ⟨_, rfl, ?_, by decide⟩
    rw [registry_Get_found_iff]
    simp only [GoMap.get, assocFind_isSome_iff, List.mem_cons, Prod.mk.injEq, List.mem_nil_iff,
      or_false]
    constructor
    · rintro ⟨v, h | h | h | h⟩
      · exact Or.inr (Or.inr (Or.inr h.1))
      · exact Or.inr (Or.inr (Or.inl h.1))
      · exact Or.inr (Or.inl h.1)
      · exact Or.inl h.1
    · rintro (h | h | h | h)
      · exact ⟨_, Or.inr (Or.inr (Or.inr ⟨h, rfl⟩))⟩
      · exact ⟨_, Or.inr (Or.inr (Or.inl ⟨h, rfl⟩))⟩
      · exact ⟨_, Or.inr (Or.inl ⟨h, rfl⟩)⟩
      · exact ⟨_, Or.inl ⟨h, rfl⟩⟩

/-- C8: whatever order the `range` loop visits the keys in, `List()` returns
the registered names and nothing else: a name occurs in the list exactly when
`Get` finds it, no name occurs twice, and the length of the list is the number
of registered names. On the registry of `NewBackendRegistry` the list is a
permutation of "dart", "python", "rust", "go". -/
theorem List_registered_names {β : Type} (r : BackendRegistry β) (order : List GoString)
    (h : r.backends.IsRangeOrder order) :
    (∀ name, name ∈ r.List order ↔ (r.Get name).2 = true) ∧
    (r.List order).Nodup ∧
    (r.List order).length = Set.ncard {name | (r.Get name).2 = true} ∧
    (r.List order).length = r.backends.len ∧
    ∀ (r0 : BackendRegistry ShippedBackend) (order0 : List GoString),
      NewBackendRegistry = .ok r0 → r0.backends.IsRangeOrder order0 →
      (r0.List order0).Perm [lit "dart", lit "python", lit "rust", lit "go"] := by
  have hmem : ∀ name, name ∈ order ↔ (r.Get name).2 = true := by
    intro name
    rw [registry_Get_found_iff, ← GoMap.mem_keys_iff]
    exact h.mem_iff
  have hnd : order.Nodup := h.nodup_iff.mpr (GoMap.keys_nodup _)
  rw [registry_List_eq]
  refine ⟨hmem, hnd, ?_, h.length_eq, ?_⟩
  · have hset : {name | (r.Get name).2 = true} = (↑order.toFinset : Set GoString) := by
      ext name
      simp [hmem]
    rw [hset, Set.ncard_coe_Finset, List.toFinset_card_of_nodup hnd]
  · intro r0 order0 h0 hr0
    rw [registry_List_eq]
    cases (Except.ok.inj h0)
    exact hr0.trans (by decide)

theorem List_registered_names_witness :
    ∃ r, NewBackendRegistry = .ok r ∧
      r.backends.IsRangeOrder [lit "rust", lit "dart", lit "go", lit "python"] ∧
      r.List [lit "rust", lit "dart", lit "go", lit "python"]
        = [lit "rust", lit "dart", lit "go", lit "python"] ∧
      (r.List [lit "rust", lit "dart", lit "go", lit "python"]).length = r.backends.len :=
  ⟨_, rfl, by decide, by decide,
    (List_registered_names
      ({ backends := .mk [(lit "go", some ShippedBackend.go), (lit "rust", some .rust),
          (lit "python", some .python), (lit "dart", some .dart)] })
      [lit "rust", lit "dart", lit "go", lit "python"] (by decide)).2.2.2.1⟩

/-- C9: no naming transform can fail. `camelCase` and `dartMethodName` return a
result on every string, the slices `s[:1]` and `s[1:]` being in range whenever
they are evaluated (`s` is then not empty); `snakeCase` and `dartClassName` use
no operation that can panic, and their `range` loops run at most `len(s)`
times. -/
theorem naming_transforms_total (U : UnicodeTables) (s : GoString) :
    (∃ v, camelCase U s = .ok v) ∧ (∃ v, dartMethodName U s = .ok v) ∧
    (s ≠ [] → (∃ front, slice s 0 1 = .ok front) ∧ ∃ back, slice s 1 s.length = .ok back) ∧
    (rangeString s).length ≤ s.length ∧
    (∃ v, snakeCase U s = v) ∧ ∃ v, dartClassName U s = v := by
  have hc : ∃ v, camelCase U s = .ok v := by
    cases s with
    | nil => exact ⟨[], rfl⟩
    | cons c t => exact ⟨_, camelCase_cons U c t⟩
  refine ⟨hc, hc, ?_, rangeFrom_length_le s 0 0, ⟨_, rfl⟩, ⟨_, rfl⟩⟩
  intro hs
  cases s with
  | nil => exact absurd rfl hs
  | cons c t => exact ⟨⟨_, slice_front c t⟩, ⟨_, slice_back c t⟩⟩

/-- C10 (the claim fails): on the zero value of `BackendRegistry`, whose map is
nil, `Register` panics instead of binding the name. -/
theorem Register_zero_value_panics :
    ({ backends := GoMap.nil } : BackendRegistry ShippedBackend).Register (lit "dart")
      (some ShippedBackend.dart) = .error Panic.nilMapAssignment := by
  decide

/-- C10 (amended): on every registry whose map is initialised, `Register`
completes for every name (the empty string included) and every backend, leaves
the name bound to that backend, and leaves the map initialised. The registry
of `NewBackendRegistry` is one whose map is initialised. -/
theorem Register_succeeds {β : Type} (r : BackendRegistry β) (name : GoString)
    (backend : Option β) (h : r.backends ≠ GoMap.nil) :
    (∃ r1, r.Register name backend = .ok r1 ∧ r1.Get name = (backend, true) ∧
      r1.backends ≠ GoMap.nil) ∧
    ∃ r0, NewBackendRegistry = .ok r0 ∧ r0.backends ≠ GoMap.nil := by
  obtain ⟨m⟩ := r
  cases m with
  | nil => exact absurd rfl h
  | mk kvs =>
    exact ⟨⟨_, rfl, by simp [BackendRegistry.Get, GoMap.get, assocFind], by simp⟩,
      ⟨_, rfl, by decide⟩⟩

theorem Register_succeeds_witness :
    (emptyRegistry ShippedBackend).backends ≠ GoMap.nil ∧
    ∃ r1, (emptyRegistry ShippedBackend).Register [] (some ShippedBackend.dart) = .ok r1 ∧
      r1.Get [] = (some ShippedBackend.dart, true) ∧ r1.backends ≠ GoMap.nil :=
  ⟨by decide, (Register_succeeds (emptyRegistry ShippedBackend) [] (some ShippedBackend.dart)
    (by decide)).1⟩

/-- C11 (defect of `camelCase`, reached through `dartMethodName`): on "Éa"
`dartMethodName` returns what `camelCase` returns, the bytes EF BF BD 89 61,
where the lower-camel transform as specified gives "éa". -/
theorem dartMethodName_splits_multibyte_first_character :
    dartMethodName latin1 (lit "Éa") = .ok [0xEF, 0xBF, 0xBD, 0x89, 0x61] ∧
    ToLowerCamel latin1 (lit "Éa") = lit "éa" ∧
    dartMethodName latin1 (lit "Éa") ≠ .ok (ToLowerCamel latin1 (lit "Éa")) := by
  decide

/-- C12: the output structure of the Dart backend names every directory a file
goes to: the parent directory of the client file is `ClientDir`, that of the
types file is `TypesDir`, and the path of every additional file either has no
directory component or has its parent directory among `ClientDir`, `TypesDir`
and `ExtraDir`. -/
theorem OutputStructure_covers_dart_files {τ δ : Type} (E : EmbeddedTemplates)
    (d : DartBackend τ) :
    parentDir d.GetClientFileName = d.GetOutputStructure.ClientDir ∧
    parentDir d.GetTypesFileName = d.GetOutputStructure.TypesDir ∧
    ∀ f ∈ (d.GetAdditionalFiles E : List (AdditionalFile δ)),
      byte 0x2F ∉ f.Path ∨
      parentDir f.Path ∈ d.GetOutputStructure.ClientDir :: d.GetOutputStructure.TypesDir ::
        d.GetOutputStructure.ExtraDir := by
  simp only [DartBackend.GetClientFileName, DartBackend.GetTypesFileName,
    DartBackend.GetOutputStructure, DartBackend.GetAdditionalFiles]
  refine ⟨by decide, by decide, ?_⟩
  intro f hf
  simp only [List.mem_cons, List.mem_singleton, List.not_mem_nil, or_false] at hf
  rcases hf with rfl | rfl
  · exact Or.inl (show byte 0x2F ∉ lit "pubspec.yaml" by decide)
  · exact Or.inr (show parentDir (lit "lib/src/json_rpc_client.dart")
      ∈ [lit "lib", lit "lib", lit "lib/src"] by decide)

/-- C13: `GetFileExtension()` of the Dart backend is ".dart", which begins with
the separator '.', and the client file name and the types file name are
relative paths (they do not begin with '/') that end with that extension. -/
theorem GetFileExtension_ends_file_names {τ : Type} (d : DartBackend τ) :
    d.GetFileExtension = lit ".dart" ∧ d.GetFileExtension.head? = some (byte 0x2E) ∧
    d.GetClientFileName.head? ≠ some (byte 0x2F) ∧
    d.GetFileExtension <:+ d.GetClientFileName ∧
    d.GetTypesFileName.head? ≠ some (byte 0x2F) ∧
    d.GetFileExtension <:+ d.GetTypesFileName := by
  simp only [DartBackend.GetClientFileName, DartBackend.GetTypesFileName,
    DartBackend.GetFileExtension]
  refine ⟨trivial, by decide, by decide, ?_, by decide, ?_⟩
  · exact ⟨lit "lib/accumulate_client", by decide⟩
  · exact ⟨lit "lib/types", by decide⟩

/-- C15: `Register` touches the binding of its own name only. When
`Register(n, B)` returns, `Get(m)` yields for every other name `m` the same
backend and the same flag as before the call. -/
theorem Register_frame {β : Type} (r r1 : BackendRegistry β) (n m : GoString) (B : Option β)
    (hne : m ≠ n) (h : r.Register n B = .ok r1) : r1.Get m = r.Get m := by
  obtain ⟨kvs, rfl, rfl⟩ := registry_Register_eq r r1 n B h
  exact registry_Get_mk_cons kvs n m B hne

theorem Register_frame_witness :
    lit "python" ≠ lit "dart" ∧
    ∃ r0 r1, NewBackendRegistry = .ok r0 ∧
      r0.Register (lit "dart") (some ShippedBackend.go) = .ok r1 ∧
      r1.Get (lit "python") = r0.Get (lit "python") ∧
      r1.Get (lit "nonexistent") = r0.Get (lit "nonexistent") :=
  ⟨by decide, _, _, rfl, rfl,
    Register_frame _ _ (lit "dart") (lit "python") (some ShippedBackend.go) (by decide) rfl,
    Register_frame _ _ (lit "dart") (lit "nonexistent") (some ShippedBackend.go) (by decide)
      rfl⟩

/-- C16: `Register` never unbinds a name. After any finite sequence of
`Register` calls that has returned, every name `Get` found before the sequence
is still found, the map holds at least as many names, and `List()` returns at
least as many names as before, whatever the orders of the two `range` loops. -/
theorem Register_never_unbinds {β : Type} (r r1 : BackendRegistry β)
    (calls : List (GoString × Option β)) (h : r.registerAll calls = .ok r1) :
    (∀ name, (r.Get name).2 = true → (r1.Get name).2 = true) ∧
    r.backends.len ≤ r1.backends.len ∧
    ∀ order order1, r.backends.IsRangeOrder order → r1.backends.IsRangeOrder order1 →
      (r.List order).length ≤ (r1.List order1).length := by
  have hlen : r.backends.len ≤ r1.backends.len := by
    rcases registry_registerAll_eq r r1 calls h with rfl | ⟨kvs, rfl, rfl⟩
    · exact Nat.le_refl _
    · exact assocKeys_length_append _ _
  refine ⟨?_, hlen, ?_⟩
  · intro name hf
    rcases registry_registerAll_eq r r1 calls h with rfl | ⟨kvs, rfl, rfl⟩
    · exact hf
    · rw [registry_Get_found_iff] at hf ⊢
      simp only [GoMap.get, assocFind_isSome_iff] at hf ⊢
      obtain ⟨v, hv⟩ := hf
      exact ⟨v, List.mem_append_right _ hv⟩
  · intro order order1 ho ho1
    rw [registry_List_eq, registry_List_eq, ho.length_eq, ho1.length_eq]
    exact hlen

theorem Register_never_unbinds_witness :
    ∃ r0 r1, NewBackendRegistry = .ok r0 ∧
      r0.registerAll [(lit "dart", none), (lit "kotlin", some ShippedBackend.go),
        (lit "dart", some ShippedBackend.rust)] = .ok r1 ∧
      (r0.Get (lit "python")).2 = true ∧ (r1.Get (lit "python")).2 = true ∧
      r0.backends.len = 4 ∧ r1.backends.len = 5 ∧ r0.backends.len ≤ r1.backends.len :=
  ⟨_, _, rfl, rfl, by decide, by decide, by decide, by decide,
    (Register_never_unbinds
      ({ backends := .mk [(lit "go", some ShippedBackend.go), (lit "rust", some .rust),
          (lit "python", some .python), (lit "dart", some .dart)] })
      _ [(lit "dart", none), (lit "kotlin", some ShippedBackend.go),
        (lit "dart", some ShippedBackend.rust)] rfl).2.1⟩

/-- C17 (defect of `SafeFileName`): `filepath.Base` hands back the names that
are not safe. `SafeFileName("..")` and `SafeFileName("a/..")` are "..", the
directory-traversal component, and `SafeFileName("/")` is "/", which contains
the path separator. -/
theorem SafeFileName_returns_traversal_component :
    SafeFileName (lit "..") = lit ".." ∧ SafeFileName (lit "a/..") = lit ".." ∧
    SafeFileName (lit "/") = lit "/" := by
  decide

/-- C18: `MapType` is idempotent in every target language: mapping a mapped
type again changes nothing, no entry of a table being a key of the same table
with another entry. -/
theorem MapType_idempotent (T L : GoString) : MapType (MapType T L) L = MapType T L := by
  cases hL : TypeMappings.get L with
  | none =>
    have h1 : ∀ X, MapType X L = X := fun X => by simp only [MapType, hL]
    rw [h1, h1]
  | some m =>
    cases hT : m.get T with
    | none =>
      have h1 : MapType T L = T := by simp only [MapType, hL, hT]
      rw [h1, h1]
    | some v =>
      have h1 : MapType T L = v := by simp only [MapType, hL, hT]
      rw [h1]
      exact MapType_fixes_entries (L, m) (GoMap.get_some_mem _ _ _ hL) (T, v)
        (GoMap.get_some_mem _ _ _ hT)

/-- C19: `snakeCase` is idempotent and its result holds no character 'A'..'Z',
for every string, given two facts of Go's Unicode tables: `unicode.ToLower`
sends a Unicode scalar value to a Unicode scalar value, and it is idempotent. -/
theorem snakeCase_idempotent (U : UnicodeTables)
    (hvalid : ∀ r, validRune r → validRune (unicode.ToLower U r))
    (hidem : ∀ r, unicode.ToLower U (unicode.ToLower U r) = unicode.ToLower U r)
    (s : GoString) :
    (∀ b ∈ snakeCase U s, ¬ (0x41 ≤ b.val ∧ b.val ≤ 0x5A)) ∧
    snakeCase U (snakeCase U s) = snakeCase U s :=
  snakeCase_idem_of U hvalid hidem s

theorem snakeCase_idempotent_witness :
    (∀ r, validRune r → validRune (unicode.ToLower latin1 r)) ∧
    (∀ r, unicode.ToLower latin1 (unicode.ToLower latin1 r) = unicode.ToLower latin1 r) ∧
    snakeCase latin1 (lit "GetÉtatV2") = lit "getétat_v2" ∧
    (∀ b ∈ snakeCase latin1 (lit "GetÉtatV2"), ¬ (0x41 ≤ b.val ∧ b.val ≤ 0x5A)) ∧
    snakeCase latin1 (snakeCase latin1 (lit "GetÉtatV2"))
      = snakeCase latin1 (lit "GetÉtatV2") :=
  ⟨latin1_ToLower_valid, latin1_ToLower_idem, by decide,
    (snakeCase_idempotent latin1 latin1_ToLower_valid latin1_ToLower_idem _).1,
    (snakeCase_idempotent latin1 latin1_ToLower_valid latin1_ToLower_idem _).2⟩

end Backends
